import Mathlib

/-!
# Dijkstra shortest paths over a heap-backed priority queue

A shallow embedding of `main.go` (package `main`): the `Item` record, the
`PriorityQueue` slice with its `Len`, `Less`, `Swap`, `Push`, `Pop` methods,
the `Graph` map and the function `Dijkstra`, together with the three
`container/heap` entry points the program calls (`heap.Init`, `heap.Push`,
`heap.Pop`) and their helpers `up` and `down`.

Modelling decisions.

* `float64` values live in a type `D` with an order, an addition, a zero and a
  greatest element `⊤` standing for `math.Inf(1)`.  The properties of runs with
  non-negative weights are proved for exact numbers: there `D` is a linearly
  ordered additive commutative monoid (for instance `WithTop ℤ`), and rounding
  is outside these statements.  The type `Float64` is float64 itself: addition
  rounds to the nearest value, ties to even, with subnormal numbers, overflow
  and both infinities; NaN is left out.  It is used where rounding decides what
  the program does, on graphs with a negative weight.
* A Go map that is only read and written by key (`distances`) is a function
  `Int → Option D`; reading a missing key yields the zero value `0`, as in Go.
* A Go map that is ranged over (`Graph` and its inner maps) is an association
  list.  The order of the outer list is the order in which `range graph`
  enumerates the keys.  The order in which `range graph[currentNode]`
  enumerates the neighbours may change from one loop iteration to the next; it
  is given by a parameter `order`, where `order k l` is the enumeration used in
  the `k`-th iteration of the main loop for the inner map stored as `l`.
* Slice indices are natural numbers.  The only place where Go computes a
  negative index is `(j - 1) / 2` at `j = 0`, which Go truncates to `0`; the
  truncated subtraction on `Nat` gives the same value.  An index that is out
  of range makes the Go program panic; the embedding returns `none`.
* Loops that are not bounded syntactically take a fuel argument and return
  `none` when it runs out.
-/

namespace GoDijkstra

/-! ## Item and PriorityQueue -/

/-- Item represents an item in the priority queue. -/
structure Item (D : Type) where
  node : Int
  priority : D
  index : Int
deriving DecidableEq

/-- PriorityQueue is the slice of items that `container/heap` operates on. -/
abbrev PriorityQueue (D : Type) := List (Item D)

namespace PriorityQueue

variable {D : Type}

/-- Source: `func (pq PriorityQueue) Len() int { return len(pq) }`. -/
def Len (pq : PriorityQueue D) : Nat := pq.length

/-- Source: `return pq[i].priority < pq[j].priority`; `none` when an index is
out of range. -/
def Less [LT D] [DecidableRel (fun a b : D => a < b)]
    (pq : PriorityQueue D) (i j : Nat) : Option Bool :=
  match pq[i]?, pq[j]? with
  | some a, some b => some (decide (a.priority < b.priority))
  | _, _ => none

/-- Source: `pq[i], pq[j] = pq[j], pq[i]; pq[i].index = i; pq[j].index = j`;
`none` when an index is out of range. -/
def Swap (pq : PriorityQueue D) (i j : Nat) : Option (PriorityQueue D) :=
  match pq[i]?, pq[j]? with
  | some a, some b =>
      some ((pq.set i { b with index := (i : Int) }).set j { a with index := (j : Int) })
  | _, _ => none

/-- Source: `n := len(*pq); item.index = n; *pq = append(*pq, item)`. -/
def Push (pq : PriorityQueue D) (x : Item D) : PriorityQueue D :=
  pq ++ [{ x with index := (pq.length : Int) }]

/-- Source: `item := old[n-1]; item.index = -1; *pq = old[0 : n-1]; return item`.
With `n = 0` the index `n-1` is `-1` and the program panics. -/
def Pop (pq : PriorityQueue D) : Option (Item D × PriorityQueue D) :=
  if pq.length = 0 then none
  else
    match pq[pq.length - 1]? with
    | none => none
    | some item => some ({ item with index := -1 }, pq.take (pq.length - 1))

end PriorityQueue

/-! ## The functions of `container/heap` used by the program -/

namespace heap

variable {D : Type} [LT D] [DecidableRel (fun a b : D => a < b)]

/-- The loop of `heap.up`:
`for { i := (j - 1) / 2; if i == j || !h.Less(j, i) { break }; h.Swap(i, j); j = i }`. -/
def upLoop : Nat → PriorityQueue D → Nat → Option (PriorityQueue D)
  | 0, _, _ => none
  | fuel + 1, h, j =>
    let i := (j - 1) / 2
    if i = j then some h
    else
      match h.Less j i with
      | none => none
      | some false => some h
      | some true =>
        match h.Swap i j with
        | none => none
        | some h1 => upLoop fuel h1 i

/-- Function `heap.up(h, j)`; the index halves at every round, so `j + 1`
rounds are enough. -/
def up (h : PriorityQueue D) (j : Nat) : Option (PriorityQueue D) :=
  upLoop (j + 1) h j

/-- The loop of `heap.down`:
`for { j1 := 2*i + 1; if j1 >= n || j1 < 0 { break }; j := j1;
if j2 := j1 + 1; j2 < n && h.Less(j2, j1) { j = j2 };
if !h.Less(j, i) { break }; h.Swap(i, j); i = j }`.
The test `j1 < 0` guards against overflow of `int` and never fires on `Nat`. -/
def downLoop : Nat → PriorityQueue D → Nat → Nat → Option (PriorityQueue D)
  | 0, _, _, _ => none
  | fuel + 1, h, i, n =>
    let j1 := 2 * i + 1
    if j1 ≥ n then some h
    else
      let j2 := j1 + 1
      match (if j2 < n then h.Less j2 j1 else some false) with
      | none => none
      | some b =>
        let j := if b then j2 else j1
        match h.Less j i with
        | none => none
        | some false => some h
        | some true =>
          match h.Swap i j with
          | none => none
          | some h1 => downLoop fuel h1 j n

/-- Function `heap.down(h, i0, n)`; the index grows at every round and stays
below `n`, so `n + 1` rounds are enough.  The boolean that Go returns is not
used by `Init`, `Push` or `Pop` and is left out. -/
def down (h : PriorityQueue D) (i0 n : Nat) : Option (PriorityQueue D) :=
  downLoop (n + 1) h i0 n

/-- The loop of `heap.Init`: `for i := n/2 - 1; i >= 0; i-- { down(h, i, n) }`;
the first argument is `i + 1`. -/
def initLoop (n : Nat) : Nat → PriorityQueue D → Option (PriorityQueue D)
  | 0, h => some h
  | i + 1, h =>
    match down h i n with
    | none => none
    | some h1 => initLoop n i h1

/-- Function `heap.Init(h)`. -/
def Init (h : PriorityQueue D) : Option (PriorityQueue D) :=
  initLoop h.Len (h.Len / 2) h

/-- Function `heap.Push(h, x)`: `h.Push(x); up(h, h.Len()-1)`. -/
def Push (h : PriorityQueue D) (x : Item D) : Option (PriorityQueue D) :=
  up (h.Push x) ((h.Push x).Len - 1)

/-- Function `heap.Pop(h)`: `n := h.Len() - 1; h.Swap(0, n); down(h, 0, n); return h.Pop()`.
On the empty queue `n` is `-1` and `Swap` panics. -/
def Pop (h : PriorityQueue D) : Option (Item D × PriorityQueue D) :=
  if h.Len = 0 then none
  else
    match h.Swap 0 (h.Len - 1) with
    | none => none
    | some h1 =>
      match down h1 0 (h.Len - 1) with
      | none => none
      | some h2 => h2.Pop

end heap

/-! ## Graph, distance table and `Dijkstra` -/

/-- Graph structure where each node points to its neighbours and their weights
(`map[int]map[int]float64`). -/
abbrev Graph (D : Type) := List (Int × List (Int × D))

/-- The table `distances` (`map[int]float64`). -/
abbrev Distances (D : Type) := Int → Option D

variable {D : Type}

/-- The expression `graph[node]` followed by `range`: the inner map of a key,
and nothing for a node that is not a key. -/
def Graph.neighbors (graph : Graph D) (node : Int) : List (Int × D) :=
  match graph.lookup node with
  | some adj => adj
  | none => []

/-- The expression `distances[node]` on the right of an assignment: a missing
key reads as the zero value. -/
def Distances.read [Zero D] (distances : Distances D) (node : Int) : D :=
  match distances node with
  | some d => d
  | none => 0

/-- The statement `distances[node] = d`. -/
def Distances.write (distances : Distances D) (node : Int) (d : D) : Distances D :=
  fun n => if n = node then some d else distances n

/-- The freshly made map `make(map[int]float64)`. -/
def Distances.empty : Distances D := fun _ => none

/-- The variables of the main loop. -/
structure State (D : Type) where
  distances : Distances D
  pq : PriorityQueue D

section Engine

variable [LinearOrder D] [Add D] [Zero D] [Top D]

/-- The loop `for node := range graph { distances[node] = math.Inf(1) }`. -/
def initDistances : Graph D → Distances D → Distances D
  | [], distances => distances
  | (node, _) :: rest, distances => initDistances rest (distances.write node ⊤)

/-- The inner loop `for neighbor, weight := range graph[currentNode]` over one
enumeration of the neighbours. -/
def relax (currentDistance : D) : List (Int × D) → State D → Option (State D)
  | [], s => some s
  | (neighbor, weight) :: rest, s =>
    let distance := currentDistance + weight
    if distance < s.distances.read neighbor then
      match heap.Push s.pq { node := neighbor, priority := distance, index := 0 } with
      | none => none
      | some pq1 => relax currentDistance rest ⟨s.distances.write neighbor distance, pq1⟩
    else relax currentDistance rest s

/-- One round of the main loop: `item := heap.Pop(&pq)` and the inner loop;
`enumerate` is the order in which this round ranges over the inner map. -/
def iteration (graph : Graph D) (enumerate : List (Int × D) → List (Int × D))
    (s : State D) : Option (State D) :=
  match heap.Pop s.pq with
  | none => none
  | some (item, pq1) =>
    relax item.priority (enumerate (graph.neighbors item.node)) ⟨s.distances, pq1⟩

/-- The main loop `for pq.Len() > 0 { ... }` followed by `return distances`;
the second argument counts the rounds already made. -/
def mainLoop (graph : Graph D) (order : Nat → List (Int × D) → List (Int × D)) :
    Nat → Nat → State D → Option (Distances D)
  | 0, _, _ => none
  | fuel + 1, k, s =>
    if s.pq.Len > 0 then
      match iteration graph (order k) s with
      | none => none
      | some s1 => mainLoop graph order fuel (k + 1) s1
    else some s.distances

/-- The state on entry to the main loop: the initialised table and the queue
after `heap.Init(&pq)` and `heap.Push(&pq, &Item{node: start, priority: 0})`. -/
def initState (graph : Graph D) (start : Int) : Option (State D) :=
  let distances := (initDistances graph Distances.empty).write start 0
  match heap.Init ([] : PriorityQueue D) with
  | none => none
  | some pq0 =>
    match heap.Push pq0 { node := start, priority := 0, index := 0 } with
    | none => none
    | some pq1 => some ⟨distances, pq1⟩

/-- Dijkstra finds the shortest paths from a source node to all other nodes in
the graph. -/
def Dijkstra (graph : Graph D) (start : Int)
    (order : Nat → List (Int × D) → List (Int × D)) (fuel : Nat) : Option (Distances D) :=
  match initState graph start with
  | none => none
  | some s => mainLoop graph order fuel 0 s

/-- The enumeration that ranges over every inner map in its stored order. -/
def storedOrder : Nat → List (Int × D) → List (Int × D) := fun _ l => l

end Engine

/-! ## Notions used to state the properties -/

section QueueDefs

variable {D : Type} [LinearOrder D] [Zero D]

/-- The (node, priority) pairs held in the queue, in slice order; the `index`
field is bookkeeping and is left out. -/
def PriorityQueue.pairs (pq : PriorityQueue D) : List (Int × D) :=
  pq.map (fun it => (it.node, it.priority))

/-- The priority stored at a slice index (`0` outside the slice). -/
def PriorityQueue.prio (pq : PriorityQueue D) (i : Nat) : D :=
  match pq[i]? with
  | some a => a.priority
  | none => 0

/-- The heap ordering on the first `n` slots: no slot has a priority below the
priority of its parent slot `(k - 1) / 2`. -/
def HeapBelow (pq : PriorityQueue D) (n : Nat) : Prop :=
  ∀ k, 0 < k → k < n → pq.prio ((k - 1) / 2) ≤ pq.prio k

/-- The heap ordering on the whole slice. -/
def IsHeap (pq : PriorityQueue D) : Prop := HeapBelow pq pq.length

/-- The queues obtained from the empty queue by finitely many calls of
`heap.Push` and `heap.Pop`. -/
inductive FromEmpty : PriorityQueue D → Prop
  | empty : FromEmpty []
  | push (h h1 : PriorityQueue D) (x : Item D) :
      FromEmpty h → heap.Push h x = some h1 → FromEmpty h1
  | pop (h h1 : PriorityQueue D) (it : Item D) :
      FromEmpty h → heap.Pop h = some (it, h1) → FromEmpty h1

end QueueDefs

section OrderDefs

variable {D : Type}

/-- In every round the enumeration of an inner map lists exactly its entries. -/
def OrderOK (order : Nat → List (Int × D) → List (Int × D)) : Prop :=
  ∀ k l, (order k l).Perm l

end OrderDefs

section SpecDefs

variable {D : Type} [LinearOrderedAddCommMonoidWithTop D]

/-- The top-level keys of the graph, in the order `range graph` yields them. -/
def Graph.keys (graph : Graph D) : List Int := graph.map Prod.fst

/-- `IsPath graph a es b`: the steps `es`, each a pair (target, weight) taken
from the inner map of the node reached so far, lead from `a` to `b`. -/
def IsPath (graph : Graph D) : Int → List (Int × D) → Int → Prop
  | a, [], b => a = b
  | a, vw :: es, b => vw ∈ graph.neighbors a ∧ IsPath graph vw.1 es b

/-- The sum of the edge weights along a path. -/
def pathWeight (es : List (Int × D)) : D := (es.map Prod.snd).sum

/-- The nodes a path visits, its first node included. -/
def pathNodes (a : Int) (es : List (Int × D)) : List Int := a :: es.map Prod.fst

/-- Every weight stored in the graph is non-negative. -/
def NonNeg (graph : Graph D) : Prop := ∀ e ∈ graph, ∀ vw ∈ e.2, 0 ≤ vw.2

/-- The number of edges stored in the graph. -/
def edgeCount (graph : Graph D) : Nat := (graph.map (fun e => e.2.length)).sum

/-- The number of stored edges whose source is not in `S`. -/
def pendingWork (graph : Graph D) (S : List Int) : Nat :=
  (graph.map (fun e => if e.1 ∈ S then 0 else e.2.length)).sum

/-- The loop invariant of `Dijkstra` under non-negative weights.  `S` lists the
nodes extracted so far and `m` is the priority extracted last. -/
structure Core (graph : Graph D) (start : Int) (S : List Int) (m : D) (s : State D) :
    Prop where
  heap : IsHeap s.pq
  dom : ∀ n, s.distances n ≠ none ↔ (n = start ∨ n ∈ graph.keys)
  mnn : 0 ≤ m
  qlow : ∀ q ∈ s.pq.pairs, m ≤ q.2 ∧ s.distances.read q.1 ≤ q.2
  dstart : s.distances start = some 0
  sound : ∀ n d, s.distances n = some d →
    d = ⊤ ∨ ∃ es, IsPath graph start es n ∧ pathWeight es = d
  pend : ∀ n d, s.distances n = some d → d ≠ ⊤ → n ∈ S ∨ (n, d) ∈ s.pq.pairs
  slow : ∀ x ∈ S, s.distances.read x ≤ m

/-- Every edge that leaves an extracted node is relaxed. -/
def Closed (graph : Graph D) (S : List Int) (s : State D) : Prop :=
  ∀ x ∈ S, ∀ vw ∈ graph.neighbors x, s.distances.read vw.1 ≤ s.distances.read x + vw.2

/-- What holds of the table when the main loop ends: it is the table of a state
that satisfies the invariant and whose queue is empty. -/
def Final (graph : Graph D) (start : Int) (t : Distances D) : Prop :=
  ∃ S m s, Core graph start S m s ∧ Closed graph S s ∧ s.pq = [] ∧ t = s.distances

/-- Two association lists store the same Go map: they have the same keys and
under every key the same inner map, up to the order of its entries. -/
def SameMap (g1 g2 : Graph D) : Prop :=
  (∀ n, n ∈ g1.keys ↔ n ∈ g2.keys) ∧ ∀ n, (g1.neighbors n).Perm (g2.neighbors n)

end SpecDefs

/-! ## Runs of the main loop -/

section RunDefs

variable {D : Type} [LinearOrder D] [Add D] [Zero D] [Top D]

/-- The state of the main loop `n` rounds later: each round is one pass through
the loop body; a state whose queue is empty makes the loop end and is kept.
The result is `none` when a round panics. -/
def rounds (graph : Graph D) (order : Nat → List (Int × D) → List (Int × D)) :
    Nat → Nat → State D → Option (State D)
  | 0, _, s => some s
  | n + 1, k, s =>
    if s.pq.Len > 0 then
      match iteration graph (order k) s with
      | none => none
      | some s1 => rounds graph order n (k + 1) s1
    else some s

/-- The state at the head of the main loop after `n` rounds of a run. -/
def stateAfter (graph : Graph D) (start : Int)
    (order : Nat → List (Int × D) → List (Int × D)) (n : Nat) : Option (State D) :=
  match initState graph start with
  | none => none
  | some s => rounds graph order n 0 s

/-- The priority that `heap.Pop` extracts in round `n` of a run, if that round
takes place. -/
def extracted (graph : Graph D) (start : Int)
    (order : Nat → List (Int × D) → List (Int × D)) (n : Nat) : Option D :=
  match stateAfter graph start order n with
  | none => none
  | some s =>
    match heap.Pop s.pq with
    | none => none
    | some (item, _) => some item.priority

/-- Every entry of the queue names a node that has a table entry, and the
table entry is at most the queued priority. -/
def QueueBound (s : State D) : Prop :=
  ∀ q ∈ s.pq.pairs, ∃ d, s.distances q.1 = some d ∧ d ≤ q.2

/-- No table entry is removed or increased on the way from `s` to `s1`. -/
def NeverIncreased (s s1 : State D) : Prop :=
  ∀ x d, s.distances x = some d → ∃ d1, s1.distances x = some d1 ∧ d1 ≤ d

/-- The states met during a run, between any two statements that touch the
table or the queue: the state on entry to the loop, the state after an
extraction, and the state after the relaxation of one neighbour.  The current
distance and the neighbour of a relaxation are left arbitrary, so every state
of a run is covered. -/
inductive Reachable (graph : Graph D) (start : Int) : State D → Prop
  | entry (s : State D) : initState graph start = some s → Reachable graph start s
  | extract (s : State D) (item : Item D) (pq1 : PriorityQueue D) :
      Reachable graph start s → heap.Pop s.pq = some (item, pq1) →
      Reachable graph start ⟨s.distances, pq1⟩
  | relaxed (s s1 : State D) (currentDistance : D) (vw : Int × D) :
      Reachable graph start s → relax currentDistance [vw] s = some s1 →
      Reachable graph start s1

end RunDefs

/-! ## A model of float64 arithmetic with rounding -/

/-- A float64 value other than NaN, the two zeros taken as one: minus infinity,
plus infinity, or a finite value.  Every finite float64 is a whole number of
units of `2^-1074`, the smallest positive float64; `finite units` stands for the
value `units * 2^-1074`.  The float64 values are the numbers of units that
`roundUnits` leaves unchanged and that lie below `overflowUnits` in magnitude;
every sum is one of them or an infinity. -/
inductive Float64 where
  | negInf : Float64
  | finite (units : Int) : Float64
  | posInf : Float64

namespace Float64

/-- The position of a value in the order of float64: minus infinity first,
the finite values by size, plus infinity last. -/
def key : Float64 → WithBot (WithTop Int)
  | negInf => ⊥
  | finite units => ((units : WithTop Int) : WithBot (WithTop Int))
  | posInf => ((⊤ : WithTop Int) : WithBot (WithTop Int))

/-- The number of units in `2^1024`, the least rounded magnitude that overflows. -/
@[irreducible] def overflowUnits : Int := 2 ^ 2098

/-- Rounding of an exact number of units to 53 significant bits, to the nearest
value and to the even one of two nearest values.  Below `2^53` units every whole
number of units is a float64 (subnormal numbers and the first normal binade). -/
def roundUnits (s : Int) : Int :=
  if s.natAbs < 2 ^ 53 then s
  else
    let step : Int := 2 ^ (Nat.log2 s.natAbs - 52)
    let q := s / step
    let r := s % step
    if 2 * r < step then q * step
    else if step < 2 * r then (q + 1) * step
    else if q % 2 = 0 then q * step
    else (q + 1) * step

/-- The float64 nearest to an exact number of units; a rounded magnitude of
`2^1024` or more overflows to an infinity. -/
def ofExact (s : Int) : Float64 :=
  if overflowUnits ≤ roundUnits s then posInf
  else if roundUnits s ≤ -overflowUnits then negInf
  else finite (roundUnits s)

/-- Float64 addition.  The sum of the two infinities of opposite sign is NaN in
IEEE 754; it is given as plus infinity here, which the program cannot tell
apart from NaN: a sum is only ever compared by `distance < distances[neighbor]`,
which is false for both, so such a sum is never stored. -/
def add : Float64 → Float64 → Float64
  | finite a, finite b => ofExact (a + b)
  | posInf, _ => posInf
  | _, posInf => posInf
  | negInf, _ => negInf
  | _, negInf => negInf

instance : LinearOrder Float64 :=
  LinearOrder.lift' key (by
    intro a b h
    cases a <;> cases b <;> simp_all [key])

instance : Add Float64 := ⟨add⟩

instance : Zero Float64 := ⟨finite 0⟩

instance : Top Float64 := ⟨posInf⟩

end Float64

/-- The graph built in `func main`. -/
def scenario1 : Graph (WithTop ℤ) :=
  [(0, [(1, 4), (2, 1)]), (1, [(3, 1)]), (2, [(1, 2), (3, 5)]), (3, [])]

/-- A single isolated node. -/
def scenario2 : Graph (WithTop ℤ) := [(0, [])]

/-- A graph with two components. -/
def scenario3 : Graph (WithTop ℤ) := [(0, [(1, 2)]), (1, []), (2, [(3, 1)]), (3, [])]

/-- A graph whose indirect route is shorter than the direct edge. -/
def scenario4 : Graph (WithTop ℤ) := [(0, [(1, 10), (2, 1)]), (1, []), (2, [(1, 1)])]

/-- A graph whose only edge leads to a node that is not a key. -/
def danglingTarget : Graph (WithTop ℤ) := [(0, [(1, 1)])]

/-- A graph with a self-loop and a cycle, all of weight zero. -/
def selfLoopCycle : Graph (WithTop ℤ) := [(0, [(0, 0), (1, 0)]), (1, [(0, 0)])]

/-- The map of `scenario1` stored with its keys and inner entries in another order. -/
def scenario1Reordered : Graph (WithTop ℤ) :=
  [(3, []), (2, [(3, 5), (1, 2)]), (0, [(2, 1), (1, 4)]), (1, [(3, 1)])]

/-- An enumeration that alternates between the reversed and the stored order. -/
def reversedOrder : Nat → List (Int × WithTop ℤ) → List (Int × WithTop ℤ) :=
  fun k l => if k % 2 = 0 then l.reverse else l

/-- The graph `{0:{1:-1}, 1:{0:0}}` with its weights as exact whole numbers. -/
def negativeWeights : Graph (WithTop ℤ) := [(0, [(1, -1)]), (1, [(0, 0)])]

/-- The queue after pushing (1, 5). -/
def queueOne : PriorityQueue (WithTop ℤ) := [{ node := 1, priority := 5, index := 0 }]

/-- The queue after then pushing (2, 3). -/
def queueTwo : PriorityQueue (WithTop ℤ) :=
  [{ node := 2, priority := 3, index := 0 }, { node := 1, priority := 5, index := 1 }]

/-- The queue after then pushing (1, 5) a second time. -/
def queueThree : PriorityQueue (WithTop ℤ) :=
  [{ node := 2, priority := 3, index := 0 }, { node := 1, priority := 5, index := 1 },
    { node := 1, priority := 5, index := 2 }]

/-- The queue after then pushing (1, 2). -/
def queueFour : PriorityQueue (WithTop ℤ) :=
  [{ node := 1, priority := 2, index := 0 }, { node := 2, priority := 3, index := 1 },
    { node := 1, priority := 5, index := 2 }, { node := 1, priority := 5, index := 3 }]

/-- The queue after then popping once. -/
def exampleQueue : PriorityQueue (WithTop ℤ) :=
  [{ node := 2, priority := 3, index := 0 }, { node := 1, priority := 5, index := 1 },
    { node := 1, priority := 5, index := 2 }]

/-- The state of the run on `scenario1` after three rounds; the next extraction
is the entry (1, 4), which the entry (1, 3) has made stale. -/
def staleState : State (WithTop ℤ) :=
  (stateAfter scenario1 0 storedOrder 3).getD ⟨Distances.empty, []⟩

/-- The state of the run on `scenario1` after two rounds; the next extraction is
the entry (1, 3), which agrees with the table. -/
def freshState : State (WithTop ℤ) :=
  (stateAfter scenario1 0 storedOrder 2).getD ⟨Distances.empty, []⟩

/-- The state on entry to the main loop for `danglingTarget` and start 0. -/
def danglingEntry : State (WithTop ℤ) :=
  ⟨(initDistances danglingTarget Distances.empty).write 0 0,
    [{ node := 0, priority := 0, index := 0 }]⟩

set_option linter.unusedSectionVars false

/-! ### The priority queue: Swap, up, down, heap.Push and heap.Pop -/

section

variable {D : Type} [LinearOrder D] [Zero D]

theorem perm_set_cons {α : Type} (a b : α) :
    ∀ (l : List α) (j : Nat), l[j]? = some b → (b :: l.set j a).Perm (a :: l) := by
  intro l
  induction l with
  | nil => intro j h; simp at h
  | cons c t ih =>
    intro j h
    cases j with
    | zero =>
      simp at h
      subst h
      simpa using List.Perm.swap a c t
    | succ j =>
      simp at h
      have h1 := ih j h
      simp only [List.set_cons_succ]
      exact ((List.Perm.swap c b _).trans (h1.cons c)).trans (List.Perm.swap a c t)

theorem perm_set_set {α : Type} (a b : α) :
    ∀ (l : List α) (i j : Nat), l[i]? = some a → l[j]? = some b →
      ((l.set i b).set j a).Perm l := by
  intro l
  induction l with
  | nil => intro i j h; simp at h
  | cons c t ih =>
    intro i j hi hj
    cases i with
    | zero =>
      simp at hi
      subst hi
      cases j with
      | zero =>
        simp at hj
        subst hj
        simp
      | succ j =>
        simp at hj
        simpa using perm_set_cons c b t j hj
    | succ i =>
      simp at hi
      cases j with
      | zero =>
        simp at hj
        subst hj
        simpa using perm_set_cons c a t i hi
      | succ j =>
        simp at hj
        simpa using ih i j hi hj

theorem prio_of_get {pq : PriorityQueue D} {i : Nat} {a : Item D} (h : pq[i]? = some a) :
    pq.prio i = a.priority := by
  simp [PriorityQueue.prio, h]

theorem Less_eq (pq : PriorityQueue D) {i j : Nat} (hi : i < pq.length) (hj : j < pq.length) :
    pq.Less i j = some (decide (pq.prio i < pq.prio j)) := by
  obtain ⟨a, ha⟩ : ∃ a, pq[i]? = some a := ⟨pq[i], List.getElem?_eq_getElem hi⟩
  obtain ⟨b, hb⟩ : ∃ b, pq[j]? = some b := ⟨pq[j], List.getElem?_eq_getElem hj⟩
  simp [PriorityQueue.Less, ha, hb, prio_of_get ha, prio_of_get hb]

theorem Swap_spec (pq : PriorityQueue D) {i j : Nat} (hi : i < pq.length) (hj : j < pq.length) :
    ∃ h1, pq.Swap i j = some h1 ∧ h1.length = pq.length ∧
      (∀ k, h1.prio k = if k = j then pq.prio i else if k = i then pq.prio j else pq.prio k) ∧
      (∀ k, k ≠ i → k ≠ j → h1[k]? = pq[k]?) ∧
      (h1[j]?.map (fun it => (it.node, it.priority)) =
        pq[i]?.map (fun it => (it.node, it.priority))) ∧
      h1.pairs.Perm pq.pairs := by
  obtain ⟨a, ha⟩ : ∃ a, pq[i]? = some a := ⟨pq[i], List.getElem?_eq_getElem hi⟩
  obtain ⟨b, hb⟩ : ∃ b, pq[j]? = some b := ⟨pq[j], List.getElem?_eq_getElem hj⟩
  have hsw : pq.Swap i j = some ((pq.set i { b with index := (i : Int) }).set j
      { a with index := (j : Int) }) := by
    simp [PriorityQueue.Swap, ha, hb]
  refine ⟨_, hsw, by simp, ?_, ?_, ?_, ?_⟩
  · intro k
    simp only [PriorityQueue.prio, List.getElem?_set, List.length_set]
    by_cases hkj : k = j
    · subst hkj; simp [hj, ha]
    · by_cases hki : k = i
      · subst hki; simp [hi, hb, hkj, Ne.symm hkj]
      · simp [hkj, hki, Ne.symm hkj, Ne.symm hki]
  · intro k hki hkj
    simp [List.getElem?_set, Ne.symm hki, Ne.symm hkj]
  · simp [List.getElem?_set, hj, ha]
  · have h := perm_set_set (a.node, a.priority) (b.node, b.priority) pq.pairs i j
      (by simp [PriorityQueue.pairs, ha]) (by simp [PriorityQueue.pairs, hb])
    simpa [PriorityQueue.pairs, List.map_set] using h

theorem upLoop_spec : ∀ (fuel : Nat) (h : PriorityQueue D) (j : Nat),
    j < fuel → j < h.length →
    (∀ k, 0 < k → k < h.length → k ≠ j → h.prio ((k - 1) / 2) ≤ h.prio k) →
    (∀ k, 0 < k → k < h.length → (k - 1) / 2 = j → h.prio ((j - 1) / 2) ≤ h.prio k) →
    ∃ h1, heap.upLoop fuel h j = some h1 ∧ h1.length = h.length ∧
      h1.pairs.Perm h.pairs ∧ IsHeap h1 := by
  intro fuel
  induction fuel with
  | zero => intro h j hf; omega
  | succ fuel ih =>
    intro h j hf hj hc1 hc2
    by_cases hij : (j - 1) / 2 = j
    · refine ⟨h, by simp [heap.upLoop, hij], rfl, List.Perm.refl _, ?_⟩
      intro k hk0 hk
      exact hc1 k hk0 hk (by omega)
    · have hi : (j - 1) / 2 < h.length := by omega
      by_cases hlt : h.prio j < h.prio ((j - 1) / 2)
      · obtain ⟨h1, hsw, hlen, hpr, -, -, hperm⟩ := Swap_spec h hi hj
        have hrec := ih h1 ((j - 1) / 2) (by omega) (by omega) ?_ ?_
        · obtain ⟨h2, hup, hlen2, hperm2, hheap⟩ := hrec
          refine ⟨h2, ?_, by omega, hperm2.trans hperm, hheap⟩
          simp [heap.upLoop, hij, Less_eq h hj hi, hlt, hsw, hup]
        · intro k hk0 hk hki
          rw [hlen] at hk
          rw [hpr, hpr]
          by_cases hkj : k = j
          · subst hkj
            simp [hij, Ne.symm hij]
            exact le_of_lt hlt
          · simp only [hkj, hki, if_false]
            by_cases hpj : (k - 1) / 2 = j
            · simp only [hpj, if_true]
              exact hc2 k hk0 hk hpj
            · simp only [hpj, if_false]
              by_cases hpi : (k - 1) / 2 = (j - 1) / 2
              · simp only [hpi, if_true]
                have := hc1 k hk0 hk hkj
                rw [hpi] at this
                exact le_trans (le_of_lt hlt) this
              · simp only [hpi, if_false]
                exact hc1 k hk0 hk hkj
        · intro k hk0 hk hki
          rw [hlen] at hk
          rw [hpr, hpr]
          have hne1 : ((j - 1) / 2 - 1) / 2 ≠ j := by omega
          simp only [hne1, if_false]
          by_cases hkj : k = j
          · subst hkj
            simp only [if_true]
            by_cases hpp : ((k - 1) / 2 - 1) / 2 = (k - 1) / 2
            · simp only [hpp, if_true]; exact le_of_lt hlt
            · simp only [hpp, if_false]
              exact hc1 _ (by omega) hi (by omega)
          · have hkne : k ≠ (j - 1) / 2 := by omega
            simp only [hkj, hkne, if_false]
            have h1k := hc1 k hk0 hk hkj
            rw [hki] at h1k
            by_cases hpp : ((j - 1) / 2 - 1) / 2 = (j - 1) / 2
            · simp only [hpp, if_true]
              exact le_trans (le_of_lt hlt) h1k
            · simp only [hpp, if_false]
              exact le_trans (hc1 _ (by omega) hi (by omega)) h1k
      · refine ⟨h, by simp [heap.upLoop, hij, Less_eq h hj hi, hlt], rfl, List.Perm.refl _, ?_⟩
        intro k hk0 hk
        by_cases hkj : k = j
        · subst hkj; exact not_lt.mp hlt
        · exact hc1 k hk0 hk hkj

theorem prio_Push_lt (h : PriorityQueue D) (x : Item D) {k : Nat} (hk : k < h.length) :
    (h.Push x).prio k = h.prio k := by
  simp [PriorityQueue.prio, PriorityQueue.Push, List.getElem?_append_left hk]

theorem heap_Push_spec (h : PriorityQueue D) (x : Item D) (hh : IsHeap h) :
    ∃ h1, heap.Push h x = some h1 ∧ h1.length = h.length + 1 ∧
      h1.pairs.Perm ((x.node, x.priority) :: h.pairs) ∧ IsHeap h1 := by
  have hlen : (h.Push x).length = h.length + 1 := by simp [PriorityQueue.Push]
  have hrec := upLoop_spec (h.length + 1) (h.Push x) h.length (by omega) (by omega) ?_ ?_
  · obtain ⟨h1, hup, hlen1, hperm, hheap⟩ := hrec
    refine ⟨h1, ?_, by omega, ?_, hheap⟩
    · simpa [heap.Push, heap.up, PriorityQueue.Len, hlen] using hup
    · refine hperm.trans ?_
      simp only [PriorityQueue.pairs, PriorityQueue.Push, List.map_append, List.map_cons,
        List.map_nil]
      exact List.perm_append_singleton _ _
  · intro k hk0 hk hkne
    have hk1 : k < h.length := by omega
    rw [prio_Push_lt h x hk1, prio_Push_lt h x (by omega)]
    exact hh k hk0 hk1
  · intro k hk0 hk hp
    omega

theorem downLoop_spec : ∀ (fuel : Nat) (h : PriorityQueue D) (i n : Nat),
    0 < fuel → n + 1 ≤ fuel + i → n ≤ h.length →
    (∀ k, 0 < k → k < n → (k - 1) / 2 ≠ i → h.prio ((k - 1) / 2) ≤ h.prio k) →
    (0 < i → ∀ k, k < n → (k - 1) / 2 = i → h.prio ((i - 1) / 2) ≤ h.prio k) →
    ∃ h1, heap.downLoop fuel h i n = some h1 ∧ h1.length = h.length ∧
      h1.pairs.Perm h.pairs ∧ (∀ k, n ≤ k → h1[k]? = h[k]?) ∧ HeapBelow h1 n := by
  intro fuel
  induction fuel with
  | zero => intro h i n hf; omega
  | succ fuel ih =>
    intro h i n _ hfuel hn hc1 hc2
    by_cases hj1 : n ≤ 2 * i + 1
    · refine ⟨h, by simp [heap.downLoop, hj1], rfl, List.Perm.refl _, fun _ _ => rfl, ?_⟩
      intro k hk0 hk
      exact hc1 k hk0 hk (by omega)
    · have hi : i < h.length := by omega
      have key : ∀ j, j < n → 0 < j → (j - 1) / 2 = i →
          (∀ k, 0 < k → k < n → (k - 1) / 2 = i → h.prio j ≤ h.prio k) →
          ∃ h1, (match h.Less j i with
            | none => none
            | some false => some h
            | some true =>
              match h.Swap i j with
              | none => none
              | some h1 => heap.downLoop fuel h1 j n) = some h1 ∧ h1.length = h.length ∧
            h1.pairs.Perm h.pairs ∧ (∀ k, n ≤ k → h1[k]? = h[k]?) ∧ HeapBelow h1 n := by
        intro j hjn hj0 hpj hmin
        have hj : j < h.length := by omega
        by_cases hlt : h.prio j < h.prio i
        · obtain ⟨h1, hsw, hlen, hpr, hsame, -, hperm⟩ := Swap_spec h hi hj
          have hrec := ih h1 j n (by omega) (by omega) (by omega) ?_ ?_
          · obtain ⟨h2, hdn, hlen2, hperm2, hsame2, hheap⟩ := hrec
            refine ⟨h2, ?_, by omega, hperm2.trans hperm, ?_, hheap⟩
            · simp [Less_eq h hj hi, hlt, hsw, hdn]
            · intro k hk
              rw [hsame2 k hk, hsame k (by omega) (by omega)]
          · intro k hk0 hk hpk
            rw [hpr, hpr]
            have hne1 : (k - 1) / 2 ≠ j := hpk
            simp only [hne1, if_false]
            by_cases hkj : k = j
            · subst hkj
              simp only [hpj, if_true]
              exact le_of_lt hlt
            · simp only [hkj, if_false]
              by_cases hki : k = i
              · subst hki
                have hne2 : (k - 1) / 2 ≠ k := by omega
                simp only [hne2, if_false, if_true]
                exact hc2 hk0 j hjn hpj
              · simp only [hki, if_false]
                by_cases hpi : (k - 1) / 2 = i
                · simp only [hpi, if_true]
                  exact hmin k hk0 hk hpi
                · simp only [hpi, if_false]
                  exact hc1 k hk0 hk hpi
          · intro _ k hk hpk
            rw [hpr, hpr]
            have hne1 : (j - 1) / 2 ≠ j := by omega
            have hne2 : k ≠ j := by omega
            have hne3 : k ≠ i := by omega
            have hne4 : i ≠ j := by omega
            simp only [hne1, hne2, hne3, hne4, hpj, if_false, if_true]
            have := hc1 k (by omega) hk (by omega)
            rw [hpk] at this
            exact this
        · refine ⟨h, by simp [Less_eq h hj hi, hlt], rfl, List.Perm.refl _, fun _ _ => rfl, ?_⟩
          intro k hk0 hk
          by_cases hpi : (k - 1) / 2 = i
          · rw [hpi]
            exact le_trans (not_lt.mp hlt) (hmin k hk0 hk hpi)
          · exact hc1 k hk0 hk hpi
      have hlt1 : 2 * i + 1 < n := by omega
      by_cases hj2 : 2 * i + 1 + 1 < n
      · by_cases hlt : h.prio (2 * i + 1 + 1) < h.prio (2 * i + 1)
        · have hk := key (2 * i + 1 + 1) hj2 (by omega) (by omega) ?_
          · simpa [heap.downLoop, hj1, hj2, Less_eq h (by omega : 2 * i + 1 + 1 < h.length)
              (by omega : 2 * i + 1 < h.length), hlt] using hk
          · intro k hk0 hk hpk
            have hcases : k = 2 * i + 1 ∨ k = 2 * i + 1 + 1 := by omega
            rcases hcases with rfl | rfl
            · exact le_of_lt hlt
            · exact le_refl _
        · have hk := key (2 * i + 1) hlt1 (by omega) (by omega) ?_
          · simpa [heap.downLoop, hj1, hj2, Less_eq h (by omega : 2 * i + 1 + 1 < h.length)
              (by omega : 2 * i + 1 < h.length), hlt] using hk
          · intro k hk0 hk hpk
            have hcases : k = 2 * i + 1 ∨ k = 2 * i + 1 + 1 := by omega
            rcases hcases with rfl | rfl
            · exact le_refl _
            · exact not_lt.mp hlt
      · have hk := key (2 * i + 1) hlt1 (by omega) (by omega) ?_
        · simpa [heap.downLoop, hj1, hj2] using hk
        · intro k hk0 hk hpk
          have hcases : k = 2 * i + 1 := by omega
          rw [hcases]

theorem root_le (h : PriorityQueue D) (hh : IsHeap h) :
    ∀ k, k < h.length → h.prio 0 ≤ h.prio k := by
  intro k
  induction k using Nat.strong_induction_on with
  | _ k ih =>
    intro hk
    by_cases hk0 : k = 0
    · subst hk0; exact le_refl _
    · exact le_trans (ih ((k - 1) / 2) (by omega) (by omega)) (hh k (by omega) hk)

theorem heap_Pop_spec (h : PriorityQueue D) (hh : IsHeap h) (hne : 0 < h.length) :
    ∃ it h1, heap.Pop h = some (it, h1) ∧ h1.length + 1 = h.length ∧ IsHeap h1 ∧
      h.pairs.Perm ((it.node, it.priority) :: h1.pairs) ∧
      (∀ e ∈ h, it.priority ≤ e.priority) := by
  obtain ⟨h1, hsw, hlen1, hpr1, -, hlast, hperm1⟩ :=
    Swap_spec h hne (by omega : h.length - 1 < h.length)
  have hdown := downLoop_spec (h.length - 1 + 1) h1 0 (h.length - 1) (by omega) (by omega)
    (by omega) ?_ (fun h0 => absurd h0 (lt_irrefl 0))
  · obtain ⟨h2, hdn, hlen2, hperm2, hsame2, hheap2⟩ := hdown
    have hl2 : h2.length = h.length := by omega
    obtain ⟨item, hitem⟩ : ∃ a, h2[h.length - 1]? = some a :=
      ⟨h2[h.length - 1], List.getElem?_eq_getElem (by omega)⟩
    obtain ⟨root, hroot⟩ : ∃ a, h[0]? = some a := ⟨h[0], List.getElem?_eq_getElem hne⟩
    have hpair : (item.node, item.priority) = (root.node, root.priority) := by
      have h3 := hsame2 (h.length - 1) (le_refl _)
      rw [hitem] at h3
      rw [← h3, hroot] at hlast
      simpa using hlast
    have hsplit : h2 = h2.take (h.length - 1) ++ [item] := by
      have h4 : List.take (h.length - 1 + 1) h2 = h2 := by
        apply List.take_of_length_le; omega
      have h5 := @List.take_succ _ h2 (h.length - 1)
      rw [h4, hitem] at h5
      simpa using h5
    refine ⟨{ item with index := -1 }, h2.take (h.length - 1), ?_, ?_, ?_, ?_, ?_⟩
    · have hne0 : ¬ h.length = 0 := by omega
      have hne2 : ¬ h2.length = 0 := by omega
      simp only [heap.Pop, PriorityQueue.Len, hne0, if_false, hsw, heap.down, hdn,
        PriorityQueue.Pop, hne2, hl2, hitem]
    · simp [hl2]; omega
    · intro k hk0 hk
      have hk1 : k < h.length - 1 := by simpa [hl2] using hk
      have e1 : ∀ m, m < h.length - 1 → PriorityQueue.prio (List.take (h.length - 1) h2) m = h2.prio m := by
        intro m hm
        simp [PriorityQueue.prio, List.getElem?_take, hm]
      rw [e1 k hk1, e1 _ (by omega)]
      exact hheap2 k hk0 hk1
    · have hp : h2.pairs.Perm ((item.node, item.priority) ::
          PriorityQueue.pairs (List.take (h.length - 1) h2)) := by
        conv_lhs => rw [hsplit]
        simp only [PriorityQueue.pairs, List.map_append, List.map_cons, List.map_nil]
        exact List.perm_append_singleton _ _
      exact (hperm1.symm.trans hperm2.symm).trans hp
    · intro e he
      obtain ⟨k, hk⟩ := List.mem_iff_getElem?.mp he
      have hklt : k < h.length := (List.getElem?_eq_some.mp hk).1
      have h6 := root_le h hh k hklt
      rw [prio_of_get hk, prio_of_get hroot] at h6
      have h7 : item.priority = root.priority := (Prod.mk.inj hpair).2
      show item.priority ≤ e.priority
      rw [h7]
      exact h6
  · intro k hk0 hk hpk
    rw [hpr1, hpr1]
    have a1 : (k - 1) / 2 ≠ h.length - 1 := by omega
    have a2 : k ≠ h.length - 1 := by omega
    have a3 : k ≠ 0 := by omega
    simp only [a1, a2, a3, hpk, if_false]
    exact hh k hk0 (by omega)

end

/-! ### The table, the graph and paths -/

section

variable {D : Type} [LinearOrder D] [Add D] [Zero D] [Top D]

theorem read_of_some {d : Distances D} {n : Int} {x : D} (h : d n = some x) : d.read n = x := by
  simp [Distances.read, h]

theorem read_of_none {d : Distances D} {n : Int} (h : d n = none) : d.read n = 0 := by
  simp [Distances.read, h]

theorem write_same (d : Distances D) (n : Int) (x : D) : (d.write n x) n = some x := by
  simp [Distances.write]

theorem write_ne (d : Distances D) {n k : Int} (x : D) (h : k ≠ n) :
    (d.write n x) k = d k := by
  simp [Distances.write, h]

theorem neighbors_mem_graph (graph : Graph D) (u : Int) (vw : Int × D)
    (h : vw ∈ graph.neighbors u) : ∃ e ∈ graph, e.1 = u ∧ vw ∈ e.2 := by
  induction graph with
  | nil => simp [Graph.neighbors] at h
  | cons e rest ih =>
    obtain ⟨k, adj⟩ := e
    by_cases hk : u = k
    · subst hk
      simp only [Graph.neighbors, List.lookup_cons, beq_self_eq_true] at h
      exact ⟨(u, adj), by simp, rfl, h⟩
    · have hk1 : (u == k) = false := by simpa using hk
      simp only [Graph.neighbors, List.lookup_cons, hk1] at h
      obtain ⟨e, he, h1, h2⟩ := ih h
      exact ⟨e, List.mem_cons_of_mem _ he, h1, h2⟩

end

section

variable {D : Type} [LinearOrderedAddCommMonoidWithTop D]

theorem neighbors_nil_of_not_key (graph : Graph D) (u : Int) (h : u ∉ graph.keys) :
    graph.neighbors u = [] := by
  induction graph with
  | nil => rfl
  | cons e rest ih =>
    obtain ⟨k, adj⟩ := e
    simp only [Graph.keys, List.map_cons, List.mem_cons, not_or] at h
    have hk : (u == k) = false := by simpa using h.1
    have ih1 := ih (by simpa [Graph.keys] using h.2)
    simp only [Graph.neighbors, List.lookup_cons, hk] at ih1 ⊢
    exact ih1

theorem nonneg_neighbors {graph : Graph D} (hnn : NonNeg graph) (u : Int) (vw : Int × D)
    (h : vw ∈ graph.neighbors u) : 0 ≤ vw.2 := by
  obtain ⟨e, he, -, h2⟩ := neighbors_mem_graph graph u vw h
  exact hnn e he vw h2

theorem pendingWork_cons (k : Int) (adj : List (Int × D)) (rest : Graph D) (S : List Int) :
    pendingWork ((k, adj) :: rest) S = (if k ∈ S then 0 else adj.length) + pendingWork rest S :=
  rfl

theorem neighbors_cons (k : Int) (adj : List (Int × D)) (rest : Graph D) (u : Int) :
    Graph.neighbors ((k, adj) :: rest) u = if u = k then adj else Graph.neighbors rest u := by
  by_cases hk : u = k
  · subst hk
    simp [Graph.neighbors, List.lookup_cons]
  · have hk1 : (u == k) = false := by simpa using hk
    simp [Graph.neighbors, List.lookup_cons, hk1, hk]

theorem pendingWork_cons_le (graph : Graph D) (u : Int) (S : List Int) :
    pendingWork graph (u :: S) ≤ pendingWork graph S := by
  induction graph with
  | nil => simp [pendingWork]
  | cons e rest ih =>
    obtain ⟨k, adj⟩ := e
    rw [pendingWork_cons, pendingWork_cons]
    have : (if k ∈ u :: S then 0 else adj.length) ≤ (if k ∈ S then 0 else adj.length) := by
      by_cases h1 : k ∈ S
      · simp [h1]
      · by_cases h2 : k = u
        · simp [h2]
        · simp [h1, h2]
    omega

theorem pendingWork_settle (graph : Graph D) (u : Int) (S : List Int) (hu : u ∉ S) :
    pendingWork graph (u :: S) + (graph.neighbors u).length ≤ pendingWork graph S := by
  induction graph with
  | nil => simp [pendingWork, Graph.neighbors]
  | cons e rest ih =>
    obtain ⟨k, adj⟩ := e
    rw [pendingWork_cons, pendingWork_cons, neighbors_cons]
    by_cases hk : u = k
    · subst hk
      have h1 := pendingWork_cons_le rest u S
      have h2 : (if u ∈ u :: S then 0 else adj.length) = 0 := by simp
      have h3 : (if u ∈ S then 0 else adj.length) = adj.length := by simp [hu]
      rw [h2, h3, if_pos rfl]
      omega
    · have h2 : (if k ∈ u :: S then 0 else adj.length) = (if k ∈ S then 0 else adj.length) := by
        simp [Ne.symm hk]
      rw [h2, if_neg hk]
      omega

theorem isPath_append (graph : Graph D) :
    ∀ (es : List (Int × D)) (a b : Int) (vw : Int × D), IsPath graph a es b →
      vw ∈ graph.neighbors b → IsPath graph a (es ++ [vw]) vw.1 := by
  intro es
  induction es with
  | nil =>
    intro a b vw h hvw
    simp only [IsPath] at h
    subst h
    exact ⟨hvw, rfl⟩
  | cons e es ih =>
    intro a b vw h hvw
    exact ⟨h.1, ih _ _ _ h.2 hvw⟩

theorem pathWeight_append (es : List (Int × D)) (vw : Int × D) :
    pathWeight (es ++ [vw]) = pathWeight es + vw.2 := by
  simp [pathWeight]

end

/-! ### The relaxation loop and one round of the main loop -/

section

variable {D : Type} [LinearOrder D] [Add D] [Zero D] [Top D]

theorem relax_cons (p : D) (v : Int) (w : D) (rest : List (Int × D)) (s : State D) :
    relax p ((v, w) :: rest) s =
      if p + w < s.distances.read v then
        match heap.Push s.pq { node := v, priority := p + w, index := 0 } with
        | none => none
        | some pq1 => relax p rest ⟨s.distances.write v (p + w), pq1⟩
      else relax p rest s := rfl

theorem relax_noop (p : D) : ∀ (l : List (Int × D)) (s : State D),
    (∀ vw ∈ l, ¬ (p + vw.2 < s.distances.read vw.1)) → relax p l s = some s := by
  intro l
  induction l with
  | nil => intro s _; rfl
  | cons vw rest ih =>
    intro s h
    obtain ⟨v, w⟩ := vw
    have h1 : ¬ (p + w < s.distances.read v) := h (v, w) (List.mem_cons_self _ _)
    rw [relax_cons, if_neg h1]
    exact ih s (fun x hx => h x (List.mem_cons_of_mem _ hx))

end

section

variable {D : Type} [LinearOrderedAddCommMonoidWithTop D]

theorem read_write_le (d : Distances D) (v : Int) (x : D) (hx : x ≤ d.read v) (n : Int) :
    (d.write v x).read n ≤ d.read n := by
  by_cases hn : n = v
  · subst hn
    rw [read_of_some (write_same d n x)]
    exact hx
  · simp [Distances.read, write_ne d x hn]

theorem core_push (graph : Graph D) (start : Int) (S : List Int) (p : D) (u : Int)
    (s : State D) (v : Int) (w : D) (hvw : (v, w) ∈ graph.neighbors u)
    (hw : 0 ≤ w) (hc : Core graph start S p s) (hsrc : s.distances u = some p)
    (hlt : p + w < s.distances.read v) (pq1 : PriorityQueue D) (hheap : IsHeap pq1)
    (hperm : pq1.pairs.Perm ((v, p + w) :: s.pq.pairs)) :
    Core graph start S p ⟨s.distances.write v (p + w), pq1⟩ ∧ v ∉ S := by
  have hp : 0 ≤ p := hc.mnn
  have hvS : v ∉ S := fun h =>
    not_lt.mpr (le_trans (hc.slow v h) (le_add_of_nonneg_right hw)) hlt
  have hdv : s.distances v ≠ none := by
    intro hnone
    rw [read_of_none hnone] at hlt
    exact not_lt.mpr (add_nonneg hp hw) hlt
  have hvstart : v ≠ start := by
    intro h
    rw [h, read_of_some hc.dstart] at hlt
    exact not_lt.mpr (add_nonneg hp hw) hlt
  refine ⟨?_, hvS⟩
  constructor
  · exact hheap
  · intro n
    by_cases hn : n = v
    · subst hn
      simp only [write_same]
      constructor
      · intro _; exact (hc.dom n).mp hdv
      · intro _; simp
    · simp only [write_ne _ _ hn]
      exact hc.dom n
  · exact hp
  · intro q hq
    have hq1 := (hperm.mem_iff).mp hq
    rcases List.mem_cons.mp hq1 with h1 | h1
    · subst h1
      refine ⟨le_add_of_nonneg_right hw, ?_⟩
      show (s.distances.write v (p + w)).read v ≤ p + w
      rw [read_of_some (write_same _ _ _)]
    · obtain ⟨h2, h3⟩ := hc.qlow q h1
      exact ⟨h2, le_trans (read_write_le s.distances v (p + w) (le_of_lt hlt) q.1) h3⟩
  · show (s.distances.write v (p + w)) start = some 0
    rw [write_ne _ _ (Ne.symm hvstart)]
    exact hc.dstart
  · intro n d hnd
    by_cases hn : n = v
    · subst hn
      have hd : d = p + w := by
        have := hnd
        simp only [write_same] at this
        exact (Option.some.inj this).symm
      rcases hc.sound u p hsrc with h1 | ⟨es, hes, hwt⟩
      · exfalso
        rw [h1, top_add] at hlt
        exact not_top_lt hlt
      · right
        refine ⟨es ++ [(n, w)], isPath_append graph es start u (n, w) hes hvw, ?_⟩
        rw [pathWeight_append, hwt, hd]
    · have : s.distances n = some d := by
        have := hnd
        simp only [write_ne _ _ hn] at this
        exact this
      exact hc.sound n d this
  · intro n d hnd hd
    by_cases hn : n = v
    · subst hn
      have hd1 : d = p + w := by
        have := hnd
        simp only [write_same] at this
        exact (Option.some.inj this).symm
      right
      exact (hperm.mem_iff).mpr (by rw [hd1]; exact List.mem_cons_self _ _)
    · have : s.distances n = some d := by
        have := hnd
        simp only [write_ne _ _ hn] at this
        exact this
      rcases hc.pend n d this hd with h1 | h1
      · exact Or.inl h1
      · exact Or.inr ((hperm.mem_iff).mpr (List.mem_cons_of_mem _ h1))
  · intro x hx
    have hxv : x ≠ v := fun h => hvS (h ▸ hx)
    show (s.distances.write v (p + w)).read x ≤ p
    have : (s.distances.write v (p + w)).read x = s.distances.read x := by
      simp [Distances.read, write_ne _ _ hxv]
    rw [this]
    exact hc.slow x hx

theorem relax_spec (graph : Graph D) (start : Int) (S : List Int) (p : D) (u : Int)
    (hu : u ∈ S) :
    ∀ (l : List (Int × D)) (s : State D),
      (∀ vw ∈ l, vw ∈ graph.neighbors u) → (∀ vw ∈ l, 0 ≤ vw.2) →
      Core graph start S p s → s.distances u = some p →
      ∃ s1, relax p l s = some s1 ∧ Core graph start S p s1 ∧
        (∀ n, s1.distances.read n ≤ s.distances.read n) ∧
        (∀ x ∈ S, s1.distances x = s.distances x) ∧
        (∀ vw ∈ l, s1.distances.read vw.1 ≤ p + vw.2) ∧
        s1.pq.length ≤ s.pq.length + l.length := by
  intro l
  induction l with
  | nil =>
    intro s _ _ hc _
    exact ⟨s, rfl, hc, fun _ => le_refl _, fun _ _ => rfl, fun _ h => absurd h (List.not_mem_nil _),
      le_refl _⟩
  | cons vw rest ih =>
    intro s hmem hnn hc hsrc
    obtain ⟨v, w⟩ := vw
    have hmem1 : ∀ x ∈ rest, x ∈ graph.neighbors u := fun x hx =>
      hmem x (List.mem_cons_of_mem _ hx)
    have hnn1 : ∀ x ∈ rest, 0 ≤ x.2 := fun x hx => hnn x (List.mem_cons_of_mem _ hx)
    by_cases hlt : p + w < s.distances.read v
    · obtain ⟨pq1, hpush, hlen, hperm, hheap⟩ :=
        heap_Push_spec s.pq { node := v, priority := p + w, index := 0 } hc.heap
      obtain ⟨hc1, hvS⟩ := core_push graph start S p u s v w
        (hmem (v, w) (List.mem_cons_self _ _)) (hnn (v, w) (List.mem_cons_self _ _)) hc hsrc hlt
        pq1 hheap hperm
      have huv : u ≠ v := fun h => hvS (h ▸ hu)
      have hsrc1 : (s.distances.write v (p + w)) u = some p := by
        rw [write_ne _ _ huv]; exact hsrc
      obtain ⟨s2, hrel, hc2, hmono, hsame, hdone, hlen2⟩ :=
        ih ⟨s.distances.write v (p + w), pq1⟩ hmem1 hnn1 hc1 hsrc1
      refine ⟨s2, ?_, hc2, ?_, ?_, ?_, ?_⟩
      · rw [relax_cons, if_pos hlt, hpush]
        exact hrel
      · intro n
        exact le_trans (hmono n) (read_write_le s.distances v (p + w) (le_of_lt hlt) n)
      · intro x hx
        have hxv : x ≠ v := fun h => hvS (h ▸ hx)
        rw [hsame x hx]
        exact write_ne _ _ hxv
      · intro x hx
        rcases List.mem_cons.mp hx with h1 | h1
        · subst h1
          refine le_trans (hmono v) ?_
          show (s.distances.write v (p + w)).read v ≤ p + w
          rw [read_of_some (write_same _ _ _)]
        · exact hdone x h1
      · have : (State.pq ⟨s.distances.write v (p + w), pq1⟩).length = s.pq.length + 1 := hlen
        simp only [List.length_cons]
        omega
    · obtain ⟨s2, hrel, hc2, hmono, hsame, hdone, hlen2⟩ := ih s hmem1 hnn1 hc hsrc
      refine ⟨s2, ?_, hc2, hmono, hsame, ?_, ?_⟩
      · rw [relax_cons, if_neg hlt]
        exact hrel
      · intro x hx
        rcases List.mem_cons.mp hx with h1 | h1
        · subst h1
          exact le_trans (hmono v) (not_lt.mp hlt)
        · exact hdone x h1
      · simp only [List.length_cons]
        omega

theorem iteration_spec (graph : Graph D) (start : Int) (hnn : NonNeg graph)
    (enumerate : List (Int × D) → List (Int × D)) (henum : ∀ l, (enumerate l).Perm l)
    (S : List Int) (m : D) (s : State D) (hc : Core graph start S m s)
    (hcl : Closed graph S s) (hne : 0 < s.pq.length) :
    ∃ s1 S1 m1, iteration graph enumerate s = some s1 ∧ Core graph start S1 m1 s1 ∧
      Closed graph S1 s1 ∧
      s1.pq.length + pendingWork graph S1 + 1 ≤ s.pq.length + pendingWork graph S := by
  obtain ⟨it, pq1, hpop, hlen, hheap, hperm, hmin⟩ := heap_Pop_spec s.pq hc.heap hne
  have hin : (it.node, it.priority) ∈ s.pq.pairs :=
    (hperm.mem_iff).mpr (List.mem_cons_self _ _)
  obtain ⟨hmp, hru⟩ := hc.qlow _ hin
  have hminp : ∀ q ∈ s.pq.pairs, it.priority ≤ q.2 := by
    intro q hq
    obtain ⟨e, he, rfl⟩ := List.mem_map.mp hq
    exact hmin e he
  have hsub : ∀ q ∈ pq1.pairs, q ∈ s.pq.pairs := fun q hq =>
    (hperm.mem_iff).mpr (List.mem_cons_of_mem _ hq)
  have hc0 : Core graph start (it.node :: S) it.priority ⟨s.distances, pq1⟩ := by
    constructor
    · exact hheap
    · exact hc.dom
    · exact le_trans hc.mnn hmp
    · intro q hq
      exact ⟨hminp q (hsub q hq), (hc.qlow q (hsub q hq)).2⟩
    · exact hc.dstart
    · exact hc.sound
    · intro n d hnd hd
      rcases hc.pend n d hnd hd with h | h
      · exact Or.inl (List.mem_cons_of_mem _ h)
      · rcases List.mem_cons.mp ((hperm.mem_iff).mp h) with h1 | h1
        · left
          have : n = it.node := (Prod.mk.inj h1).1
          rw [this]
          exact List.mem_cons_self _ _
        · exact Or.inr h1
    · intro x hx
      rcases List.mem_cons.mp hx with h1 | h1
      · rw [h1]; exact hru
      · exact le_trans (hc.slow x h1) hmp
  have hiter : iteration graph enumerate s =
      relax it.priority (enumerate (graph.neighbors it.node)) ⟨s.distances, pq1⟩ := by
    simp only [iteration, hpop]
  have hlmem : ∀ vw, vw ∈ enumerate (graph.neighbors it.node) ↔ vw ∈ graph.neighbors it.node :=
    fun vw => (henum _).mem_iff
  have hwork0 := pendingWork_cons_le graph it.node S
  by_cases huS : it.node ∈ S
  · refine ⟨⟨s.distances, pq1⟩, it.node :: S, it.priority, ?_, hc0, ?_, ?_⟩
    · rw [hiter]
      apply relax_noop
      intro vw hvw
      have h1 := hcl it.node huS vw ((hlmem vw).mp hvw)
      exact not_lt.mpr (le_trans h1 (add_le_add_right hru _))
    · intro x hx vw hvw
      rcases List.mem_cons.mp hx with h1 | h1
      · rw [h1] at hvw ⊢
        exact hcl it.node huS vw hvw
      · exact hcl x h1 vw hvw
    · show pq1.length + pendingWork graph (it.node :: S) + 1 ≤ _
      omega
  · cases hdu : s.distances it.node with
    | none =>
      have hnk : it.node ∉ graph.keys := by
        intro hk
        exact (hc.dom it.node).mpr (Or.inr hk) hdu
      have hnil : enumerate (graph.neighbors it.node) = [] := by
        rw [neighbors_nil_of_not_key graph it.node hnk]
        exact List.Perm.eq_nil (henum [])
      refine ⟨⟨s.distances, pq1⟩, it.node :: S, it.priority, ?_, hc0, ?_, ?_⟩
      · rw [hiter, hnil]
        rfl
      · intro x hx vw hvw
        rcases List.mem_cons.mp hx with h1 | h1
        · rw [h1, neighbors_nil_of_not_key graph it.node hnk] at hvw
          exact absurd hvw (List.not_mem_nil _)
        · exact hcl x h1 vw hvw
      · show pq1.length + pendingWork graph (it.node :: S) + 1 ≤ _
        omega
    | some d =>
      have hd : d = it.priority := by
        have h1 : d ≤ it.priority := by
          rw [read_of_some hdu] at hru; exact hru
        rcases lt_or_eq_of_le h1 with h2 | h2
        · exfalso
          have hdtop : d ≠ ⊤ := ne_top_of_lt h2
          rcases hc.pend it.node d hdu hdtop with h3 | h3
          · exact huS h3
          · exact not_lt.mpr (hminp _ h3) h2
        · exact h2
      rw [hd] at hdu
      obtain ⟨s1, hrel, hc1, hmono, hsame, hdone, hlen1⟩ :=
        relax_spec graph start (it.node :: S) it.priority it.node (List.mem_cons_self _ _)
          (enumerate (graph.neighbors it.node)) ⟨s.distances, pq1⟩
          (fun vw hvw => (hlmem vw).mp hvw)
          (fun vw hvw => nonneg_neighbors hnn it.node vw ((hlmem vw).mp hvw)) hc0 hdu
      have hread : ∀ x ∈ it.node :: S, s1.distances.read x = s.distances.read x := by
        intro x hx
        simp only [Distances.read, hsame x hx]
      refine ⟨s1, it.node :: S, it.priority, ?_, hc1, ?_, ?_⟩
      · rw [hiter]; exact hrel
      · intro x hx vw hvw
        rcases List.mem_cons.mp hx with h1 | h1
        · rw [h1] at hvw ⊢
          have h2 := hdone vw ((hlmem vw).mpr hvw)
          have h3 : s1.distances.read it.node = it.priority := by
            rw [hread it.node (List.mem_cons_self _ _)]
            exact read_of_some hdu
          rw [h3]
          exact h2
        · rw [hread x hx]
          exact le_trans (hmono vw.1) (hcl x h1 vw hvw)
      · have h4 := pendingWork_settle graph it.node S huS
        have h5 : (enumerate (graph.neighbors it.node)).length =
            (graph.neighbors it.node).length := (henum _).length_eq
        have h6 : s1.pq.length ≤ pq1.length + (enumerate (graph.neighbors it.node)).length :=
          hlen1
        omega

end

/-! ### The main loop and the state on entry -/

section

variable {D : Type} [LinearOrderedAddCommMonoidWithTop D]

theorem mainLoop_spec (graph : Graph D) (start : Int) (hnn : NonNeg graph)
    (order : Nat → List (Int × D) → List (Int × D)) (hord : OrderOK order) :
    ∀ (fuel k : Nat) (s : State D) (S : List Int) (m : D),
      Core graph start S m s → Closed graph S s →
      s.pq.length + pendingWork graph S < fuel →
      ∃ t, mainLoop graph order fuel k s = some t ∧ Final graph start t := by
  intro fuel
  induction fuel with
  | zero => intro k s S m _ _ h; omega
  | succ fuel ih =>
    intro k s S m hc hcl hfuel
    by_cases hne : 0 < s.pq.length
    · obtain ⟨s1, S1, m1, hit, hc1, hcl1, hless⟩ :=
        iteration_spec graph start hnn (order k) (hord k) S m s hc hcl hne
      obtain ⟨t, ht, hfin⟩ := ih (k + 1) s1 S1 m1 hc1 hcl1 (by omega)
      refine ⟨t, ?_, hfin⟩
      have hlen : s.pq.Len > 0 := hne
      simp only [mainLoop, hlen, if_true, hit]
      exact ht
    · have hnil : s.pq = [] := List.length_eq_zero.mp (by omega)
      refine ⟨s.distances, ?_, S, m, s, hc, hcl, hnil, rfl⟩
      have hlen : ¬ s.pq.Len > 0 := hne
      simp only [mainLoop, hlen, if_false]

theorem initDistances_apply (graph : Graph D) :
    ∀ (d : Distances D) (n : Int),
      initDistances graph d n = if n ∈ graph.keys then some ⊤ else d n := by
  induction graph with
  | nil => intro d n; simp [initDistances, Graph.keys]
  | cons e rest ih =>
    intro d n
    obtain ⟨k, adj⟩ := e
    simp only [initDistances, ih, Graph.keys, List.map_cons, List.mem_cons]
    by_cases h1 : n ∈ List.map Prod.fst rest
    · simp [h1]
    · by_cases h2 : n = k
      · simp [h1, h2, Distances.write]
      · simp [h1, h2, Distances.write]

end

section

variable {D : Type} [LinearOrder D] [Add D] [Zero D] [Top D]

theorem heap_Init_nil : heap.Init ([] : PriorityQueue D) = some [] := by
  simp [heap.Init, heap.initLoop, PriorityQueue.Len]

theorem heap_Push_nil (x : Item D) :
    heap.Push ([] : PriorityQueue D) x = some [{ x with index := 0 }] := by
  simp [heap.Push, heap.up, heap.upLoop, PriorityQueue.Push, PriorityQueue.Len]

theorem initState_eq (graph : Graph D) (start : Int) :
    initState graph start =
      some ⟨(initDistances graph Distances.empty).write start 0,
        [{ node := start, priority := 0, index := 0 }]⟩ := by
  simp [initState, heap_Init_nil, heap_Push_nil]

end

section

variable {D : Type} [LinearOrderedAddCommMonoidWithTop D]

theorem pendingWork_nil (graph : Graph D) : pendingWork graph [] = edgeCount graph := by
  simp [pendingWork, edgeCount]

end

section

variable {D : Type} [LinearOrder D] [Zero D]

theorem isHeap_singleton (x : Item D) : IsHeap [x] := by
  intro k hk0 hk
  simp at hk
  omega

end

section

variable {D : Type} [LinearOrderedAddCommMonoidWithTop D]

theorem init_core (graph : Graph D) (start : Int) :
    Core graph start [] 0
      ⟨(initDistances graph Distances.empty).write start 0,
        [{ node := start, priority := 0, index := 0 }]⟩ := by
  constructor
  · exact isHeap_singleton _
  · intro n
    by_cases hn : n = start
    · simp [hn, write_same]
    · simp [hn, write_ne _ _ hn, initDistances_apply, Distances.empty]
  · exact le_refl _
  · intro q hq
    simp only [PriorityQueue.pairs, List.map_cons, List.map_nil, List.mem_singleton] at hq
    subst hq
    exact ⟨le_refl _, by simp [Distances.read, write_same]⟩
  · exact write_same _ _ _
  · intro n d hnd
    by_cases hn : n = start
    · subst hn
      right
      refine ⟨[], rfl, ?_⟩
      simp only [write_same] at hnd
      simpa [pathWeight] using (Option.some.inj hnd)
    · left
      simp only [write_ne _ _ hn, initDistances_apply, Distances.empty] at hnd
      by_cases hk : n ∈ graph.keys
      · simp only [hk, if_true] at hnd
        exact (Option.some.inj hnd).symm
      · simp [hk] at hnd
  · intro n d hnd hd
    right
    by_cases hn : n = start
    · subst hn
      simp only [write_same] at hnd
      have : d = 0 := (Option.some.inj hnd).symm
      simp [PriorityQueue.pairs, this]
    · exfalso
      simp only [write_ne _ _ hn, initDistances_apply, Distances.empty] at hnd
      by_cases hk : n ∈ graph.keys
      · simp only [hk, if_true] at hnd
        exact hd (Option.some.inj hnd).symm
      · simp [hk] at hnd
  · intro x hx
    exact absurd hx (List.not_mem_nil _)

theorem Dijkstra_final (graph : Graph D) (start : Int) (hnn : NonNeg graph)
    (order : Nat → List (Int × D) → List (Int × D)) (hord : OrderOK order)
    (fuel : Nat) (hfuel : edgeCount graph + 2 ≤ fuel) :
    ∃ t, Dijkstra graph start order fuel = some t ∧ Final graph start t := by
  have h := mainLoop_spec graph start hnn order hord fuel 0 _ [] 0 (init_core graph start)
    (fun x hx => absurd hx (List.not_mem_nil _))
    (by rw [pendingWork_nil]; simp only [List.length_singleton]; omega)
  simpa only [Dijkstra, initState_eq] using h

end

/-! ### What the returned table satisfies -/

section

variable {D : Type} [LinearOrderedAddCommMonoidWithTop D]

theorem final_triangle {graph : Graph D} {start : Int} {t : Distances D}
    (hfin : Final graph start t) (u : Int) (vw : Int × D) (hvw : vw ∈ graph.neighbors u) :
    t.read vw.1 ≤ t.read u + vw.2 := by
  obtain ⟨S, m, s, hc, hcl, hnil, rfl⟩ := hfin
  cases hdu : s.distances u with
  | none =>
    exfalso
    have hnk : u ∉ graph.keys := fun hk => (hc.dom u).mpr (Or.inr hk) hdu
    rw [neighbors_nil_of_not_key graph u hnk] at hvw
    exact absurd hvw (List.not_mem_nil _)
  | some du =>
    by_cases htop : du = ⊤
    · rw [read_of_some hdu, htop, top_add]
      exact le_top
    · rcases hc.pend u du hdu htop with h | h
      · exact hcl u h vw hvw
      · rw [hnil] at h
        simp [PriorityQueue.pairs] at h

theorem pathWeight_cons (vw : Int × D) (es : List (Int × D)) :
    pathWeight (vw :: es) = vw.2 + pathWeight es := by
  simp [pathWeight]

theorem final_lower {graph : Graph D} {start : Int} {t : Distances D}
    (hfin : Final graph start t) :
    ∀ (es : List (Int × D)) (a b : Int), IsPath graph a es b →
      t.read b ≤ t.read a + pathWeight es := by
  intro es
  induction es with
  | nil =>
    intro a b h
    simp only [IsPath] at h
    subst h
    simp [pathWeight]
  | cons vw es ih =>
    intro a b h
    have h1 := ih vw.1 b h.2
    have h2 := final_triangle hfin a vw h.1
    rw [pathWeight_cons, ← add_assoc]
    exact le_trans h1 (add_le_add_right h2 _)

theorem final_lower_start {graph : Graph D} {start : Int} {t : Distances D}
    (hfin : Final graph start t) (es : List (Int × D)) (b : Int)
    (h : IsPath graph start es b) : t.read b ≤ pathWeight es := by
  obtain ⟨S, m, s, hc, hcl, hnil, ht⟩ := hfin
  have h1 := final_lower ⟨S, m, s, hc, hcl, hnil, ht⟩ es start b h
  have h2 : t.read start = 0 := by rw [ht]; exact read_of_some hc.dstart
  rw [h2, zero_add] at h1
  exact h1

theorem final_dom {graph : Graph D} {start : Int} {t : Distances D}
    (hfin : Final graph start t) (n : Int) : t n ≠ none ↔ (n = start ∨ n ∈ graph.keys) := by
  obtain ⟨S, m, s, hc, -, -, rfl⟩ := hfin
  exact hc.dom n

theorem final_start {graph : Graph D} {start : Int} {t : Distances D}
    (hfin : Final graph start t) : t start = some 0 := by
  obtain ⟨S, m, s, hc, -, -, rfl⟩ := hfin
  exact hc.dstart

theorem final_sound {graph : Graph D} {start : Int} {t : Distances D}
    (hfin : Final graph start t) (n : Int) (d : D) (h : t n = some d) :
    d = ⊤ ∨ ∃ es, IsPath graph start es n ∧ pathWeight es = d := by
  obtain ⟨S, m, s, hc, -, -, rfl⟩ := hfin
  exact hc.sound n d h

theorem final_entry {graph : Graph D} {start : Int} {t : Distances D}
    (hfin : Final graph start t) (n : Int) (h : n = start ∨ n ∈ graph.keys) :
    ∃ d, t n = some d := by
  have h1 := (final_dom hfin n).mpr h
  cases hd : t n with
  | none => exact absurd hd h1
  | some d => exact ⟨d, rfl⟩

theorem isPath_closed (graph : Graph D) (P : Int → Prop)
    (hP : ∀ a, P a → ∀ vw ∈ graph.neighbors a, P vw.1) :
    ∀ (es : List (Int × D)) (a b : Int), P a → IsPath graph a es b → P b := by
  intro es
  induction es with
  | nil =>
    intro a b ha h
    simp only [IsPath] at h
    exact h ▸ ha
  | cons vw es ih =>
    intro a b ha h
    exact ih vw.1 b (hP a ha vw h.1) h.2

theorem isPath_sameMap {g1 g2 : Graph D} (h : SameMap g1 g2) :
    ∀ (es : List (Int × D)) (a b : Int), IsPath g1 a es b → IsPath g2 a es b := by
  intro es
  induction es with
  | nil => intro a b hp; exact hp
  | cons vw es ih =>
    intro a b hp
    exact ⟨((h.2 a).mem_iff).mp hp.1, ih _ _ hp.2⟩

theorem orderOK_storedOrder : OrderOK (storedOrder : Nat → List (Int × D) → List (Int × D)) :=
  fun _ l => List.Perm.refl l

theorem isPath_suffix_from (graph : Graph D) (hnn : NonNeg graph) :
    ∀ (es : List (Int × D)) (c b x : Int), IsPath graph c es b → x ∈ pathNodes c es →
      ∃ es2, IsPath graph x es2 b ∧ (pathNodes x es2).Sublist (pathNodes c es) ∧
        pathWeight es2 ≤ pathWeight es := by
  intro es
  induction es with
  | nil =>
    intro c b x hp hx
    simp only [pathNodes, List.map_nil, List.mem_singleton] at hx
    subst hx
    exact ⟨[], hp, List.Sublist.refl _, le_refl _⟩
  | cons e rest ih =>
    intro c b x hp hx
    by_cases hxc : x = c
    · subst hxc
      exact ⟨e :: rest, hp, List.Sublist.refl _, le_refl _⟩
    · have hx1 : x ∈ pathNodes e.1 rest := by
        simp only [pathNodes, List.map_cons, List.mem_cons] at hx ⊢
        rcases hx with h | h
        · exact absurd h hxc
        · exact h
      obtain ⟨es2, hp2, hsub, hw⟩ := ih e.1 b x hp.2 hx1
      refine ⟨es2, hp2, ?_, ?_⟩
      · have : pathNodes c (e :: rest) = c :: pathNodes e.1 rest := by
          simp [pathNodes]
        rw [this]
        exact List.Sublist.cons _ hsub
      · rw [pathWeight_cons]
        exact le_trans hw (le_add_of_nonneg_left (nonneg_neighbors hnn c e hp.1))

theorem isPath_simplify (graph : Graph D) (hnn : NonNeg graph) :
    ∀ (es : List (Int × D)) (a b : Int), IsPath graph a es b →
      ∃ es1, IsPath graph a es1 b ∧ (pathNodes a es1).Nodup ∧
        pathWeight es1 ≤ pathWeight es := by
  intro es
  induction es with
  | nil =>
    intro a b hp
    exact ⟨[], hp, by simp [pathNodes], le_refl _⟩
  | cons e rest ih =>
    intro a b hp
    obtain ⟨es1, hp1, hnd1, hw1⟩ := ih e.1 b hp.2
    have hw0 : 0 ≤ e.2 := nonneg_neighbors hnn a e hp.1
    by_cases ha : a ∈ pathNodes e.1 es1
    · obtain ⟨es2, hp2, hsub, hw2⟩ := isPath_suffix_from graph hnn es1 e.1 b a hp1 ha
      refine ⟨es2, hp2, hnd1.sublist hsub, ?_⟩
      rw [pathWeight_cons]
      exact le_trans hw2 (le_trans hw1 (le_add_of_nonneg_left hw0))
    · refine ⟨e :: es1, ⟨hp.1, hp1⟩, ?_, ?_⟩
      · have : pathNodes a (e :: es1) = a :: pathNodes e.1 es1 := by
          simp [pathNodes]
        rw [this]
        exact List.nodup_cons.mpr ⟨ha, hnd1⟩
      · rw [pathWeight_cons, pathWeight_cons]
        exact add_le_add_left hw1 _

end

/-! ### Shortest distances (C1 to C8) -/

section

variable {D : Type} [LinearOrderedAddCommMonoidWithTop D]

/-- C1: with non-negative weights, the table entry of every top-level key that is reachable
from start is the minimum of the weights of the directed paths from start to it: a path that
repeats no node has that weight and no path, repeating nodes or not, has a smaller one. -/
theorem C1_reachable_key_gets_minimum_path_weight (graph : Graph D) (start : Int)
    (order : Nat → List (Int × D) → List (Int × D)) (fuel : Nat) (n : Int)
    (hnn : NonNeg graph) (hord : OrderOK order) (hfuel : edgeCount graph + 2 ≤ fuel)
    (hkey : n ∈ graph.keys) (hreach : ∃ es, IsPath graph start es n) :
    ∃ t d, Dijkstra graph start order fuel = some t ∧ t n = some d ∧
      (∃ es, IsPath graph start es n ∧ (pathNodes start es).Nodup ∧ pathWeight es = d) ∧
      (∀ es, IsPath graph start es n → d ≤ pathWeight es) := by
  obtain ⟨t, hrun, hfin⟩ := Dijkstra_final graph start hnn order hord fuel hfuel
  obtain ⟨d, hd⟩ := final_entry hfin n (Or.inr hkey)
  have hlow : ∀ es, IsPath graph start es n → d ≤ pathWeight es := by
    intro es hes
    have := final_lower_start hfin es n hes
    rwa [read_of_some hd] at this
  have hattained : ∃ es, IsPath graph start es n ∧ pathWeight es = d := by
    rcases final_sound hfin n d hd with htop | hpath
    · obtain ⟨es, hes⟩ := hreach
      refine ⟨es, hes, ?_⟩
      have := hlow es hes
      rw [htop] at this ⊢
      exact le_antisymm le_top this
    · exact hpath
  obtain ⟨es, hes, hw⟩ := hattained
  obtain ⟨es1, hes1, hnodup, hw1⟩ := isPath_simplify graph hnn es start n hes
  exact ⟨t, d, hrun, hd, ⟨es1, hes1, hnodup, le_antisymm (hw ▸ hw1) (hlow es1 hes1)⟩, hlow⟩

theorem C1_witness :
    NonNeg scenario1 ∧ OrderOK (storedOrder : Nat → List (Int × WithTop ℤ) → _) ∧
    edgeCount scenario1 + 2 ≤ 7 ∧ (3 : Int) ∈ scenario1.keys ∧
    (∃ es, IsPath scenario1 0 es 3) ∧
    (∃ t d, Dijkstra scenario1 0 storedOrder 7 = some t ∧ t 3 = some d ∧
      (∃ es, IsPath scenario1 0 es 3 ∧ (pathNodes 0 es).Nodup ∧ pathWeight es = d) ∧
      (∀ es, IsPath scenario1 0 es 3 → d ≤ pathWeight es)) ∧
    (Dijkstra scenario1 0 storedOrder 7).map (fun t => [t 0, t 1, t 2, t 3]) =
      some [some 0, some 3, some 1, some 4] ∧
    (Dijkstra scenario4 0 storedOrder 5).map (fun t => t 1) = some (some 2) :=
  ⟨by unfold NonNeg; decide, orderOK_storedOrder, by decide, by decide,
    ⟨[(2, 1), (1, 2), (3, 1)], by decide, by decide, by decide, rfl⟩,
    C1_reachable_key_gets_minimum_path_weight scenario1 0 storedOrder 7 3
      (by unfold NonNeg; decide) orderOK_storedOrder (by decide) (by decide)
      ⟨[(2, 1), (1, 2), (3, 1)], by decide, by decide, by decide, rfl⟩,
    by decide, by decide⟩

/-- C2: with non-negative weights, a top-level key other than start that no directed path
from start reaches keeps the value positive infinity in the returned table. -/
theorem C2_unreachable_key_is_infinite (graph : Graph D) (start : Int)
    (order : Nat → List (Int × D) → List (Int × D)) (fuel : Nat) (n : Int)
    (hnn : NonNeg graph) (hord : OrderOK order) (hfuel : edgeCount graph + 2 ≤ fuel)
    (hkey : n ∈ graph.keys) (_hne : n ≠ start) (hun : ¬ ∃ es, IsPath graph start es n) :
    ∃ t, Dijkstra graph start order fuel = some t ∧ t n = some ⊤ := by
  obtain ⟨t, hrun, hfin⟩ := Dijkstra_final graph start hnn order hord fuel hfuel
  obtain ⟨d, hd⟩ := final_entry hfin n (Or.inr hkey)
  refine ⟨t, hrun, ?_⟩
  rcases final_sound hfin n d hd with htop | ⟨es, hes, -⟩
  · rw [hd, htop]
  · exact absurd ⟨es, hes⟩ hun

theorem scenario3_unreachable : ¬ ∃ es, IsPath scenario3 0 es 2 := by
  rintro ⟨es, hes⟩
  have h := isPath_closed scenario3 (fun a => a = 0 ∨ a = 1)
    (by
      intro a ha
      rcases ha with rfl | rfl <;> decide) es 0 2 (Or.inl rfl) hes
  omega

theorem C2_witness :
    NonNeg scenario3 ∧ OrderOK (storedOrder : Nat → List (Int × WithTop ℤ) → _) ∧
    edgeCount scenario3 + 2 ≤ 4 ∧ (2 : Int) ∈ scenario3.keys ∧ (2 : Int) ≠ 0 ∧
    (¬ ∃ es, IsPath scenario3 0 es 2) ∧
    (∃ t, Dijkstra scenario3 0 storedOrder 4 = some t ∧ t 2 = some ⊤) ∧
    (Dijkstra scenario3 0 storedOrder 4).map (fun t => [t 0, t 1, t 2, t 3]) =
      some [some 0, some 2, some ⊤, some ⊤] :=
  ⟨by unfold NonNeg; decide, orderOK_storedOrder, by decide, by decide, by decide,
    scenario3_unreachable,
    C2_unreachable_key_is_infinite scenario3 0 storedOrder 4 2 (by unfold NonNeg; decide)
      orderOK_storedOrder (by decide) (by decide) (by decide) scenario3_unreachable,
    by decide⟩

/-- C3: with non-negative weights the returned table maps start to 0, whether or not start
is a top-level key and whatever cycles or self-loops pass through it. -/
theorem C3_start_entry_is_zero (graph : Graph D) (start : Int)
    (order : Nat → List (Int × D) → List (Int × D)) (fuel : Nat)
    (hnn : NonNeg graph) (hord : OrderOK order) (hfuel : edgeCount graph + 2 ≤ fuel) :
    ∃ t, Dijkstra graph start order fuel = some t ∧ t start = some 0 := by
  obtain ⟨t, hrun, hfin⟩ := Dijkstra_final graph start hnn order hord fuel hfuel
  exact ⟨t, hrun, final_start hfin⟩

theorem C3_witness :
    NonNeg scenario2 ∧ OrderOK (storedOrder : Nat → List (Int × WithTop ℤ) → _) ∧
    edgeCount scenario2 + 2 ≤ 2 ∧
    (∃ t, Dijkstra scenario2 0 storedOrder 2 = some t ∧ t 0 = some 0) ∧
    (Dijkstra scenario2 0 storedOrder 2).map (fun t => [t (-1), t 0, t 1]) =
      some [none, some 0, none] ∧
    (Dijkstra selfLoopCycle 0 storedOrder 5).map (fun t => t 0) = some (some 0) ∧
    (Dijkstra scenario2 9 storedOrder 2).map (fun t => t 9) = some (some 0) :=
  ⟨by unfold NonNeg; decide, orderOK_storedOrder, by decide,
    C3_start_entry_is_zero scenario2 0 storedOrder 2 (by unfold NonNeg; decide)
      orderOK_storedOrder (by decide),
    by decide, by decide, by decide⟩

/-- C4: with non-negative weights the nodes that have an entry in the returned table are
exactly the top-level keys of the graph together with start; a node that occurs only as a
neighbour target has no entry. -/
theorem C4_entries_are_keys_and_start (graph : Graph D) (start : Int)
    (order : Nat → List (Int × D) → List (Int × D)) (fuel : Nat)
    (hnn : NonNeg graph) (hord : OrderOK order) (hfuel : edgeCount graph + 2 ≤ fuel) :
    ∃ t, Dijkstra graph start order fuel = some t ∧
      ∀ n, t n ≠ none ↔ (n = start ∨ n ∈ graph.keys) := by
  obtain ⟨t, hrun, hfin⟩ := Dijkstra_final graph start hnn order hord fuel hfuel
  exact ⟨t, hrun, final_dom hfin⟩

theorem C4_witness :
    NonNeg danglingTarget ∧ OrderOK (storedOrder : Nat → List (Int × WithTop ℤ) → _) ∧
    edgeCount danglingTarget + 2 ≤ 3 ∧
    (∃ t, Dijkstra danglingTarget 0 storedOrder 3 = some t ∧
      ∀ n, t n ≠ none ↔ (n = 0 ∨ n ∈ danglingTarget.keys)) ∧
    (Dijkstra danglingTarget 0 storedOrder 3).map (fun t => [t 0, t 1]) =
      some [some 0, none] :=
  ⟨by unfold NonNeg; decide, orderOK_storedOrder, by decide,
    C4_entries_are_keys_and_start danglingTarget 0 storedOrder 3 (by unfold NonNeg; decide)
      orderOK_storedOrder (by decide),
    by decide⟩

/-- C5: with non-negative weights, for every edge (u, v, w) whose target v has an entry in
the returned table, the source u has an entry too and table[v] ≤ table[u] + w, where
adding to positive infinity gives positive infinity. -/
theorem C5_triangle_inequality_on_edges (graph : Graph D) (start : Int)
    (order : Nat → List (Int × D) → List (Int × D)) (fuel : Nat)
    (hnn : NonNeg graph) (hord : OrderOK order) (hfuel : edgeCount graph + 2 ≤ fuel) :
    ∃ t, Dijkstra graph start order fuel = some t ∧
      ∀ (u v : Int) (w dv : D), (v, w) ∈ graph.neighbors u → t v = some dv →
        ∃ du, t u = some du ∧ dv ≤ du + w ∧ (du = ⊤ → du + w = ⊤) := by
  obtain ⟨t, hrun, hfin⟩ := Dijkstra_final graph start hnn order hord fuel hfuel
  refine ⟨t, hrun, ?_⟩
  intro u v w dv hvw hdv
  have hukey : u ∈ graph.keys := by
    by_contra hnk
    rw [neighbors_nil_of_not_key graph u hnk] at hvw
    exact absurd hvw (List.not_mem_nil _)
  obtain ⟨du, hdu⟩ := final_entry hfin u (Or.inr hukey)
  refine ⟨du, hdu, ?_, fun h => by rw [h, top_add]⟩
  have h := final_triangle hfin u (v, w) hvw
  rwa [read_of_some hdv, read_of_some hdu] at h

theorem C5_witness :
    NonNeg scenario1 ∧ OrderOK (storedOrder : Nat → List (Int × WithTop ℤ) → _) ∧
    edgeCount scenario1 + 2 ≤ 8 ∧
    (∃ t, Dijkstra scenario1 0 storedOrder 8 = some t ∧
      ∀ (u v : Int) (w dv : WithTop ℤ), (v, w) ∈ scenario1.neighbors u → t v = some dv →
        ∃ du, t u = some du ∧ dv ≤ du + w ∧ (du = ⊤ → du + w = ⊤)) :=
  ⟨by unfold NonNeg; decide, orderOK_storedOrder, by decide,
    C5_triangle_inequality_on_edges scenario1 0 storedOrder 8 (by unfold NonNeg; decide)
      orderOK_storedOrder (by decide)⟩

/-- C6: with non-negative weights (cycles, self-loops and zero-weight cycles included) the
main loop ends: once the fuel exceeds the number of edges by two, the queue is found empty
after at most that many extractions and the table is returned. -/
theorem C6_main_loop_terminates (graph : Graph D) (start : Int)
    (order : Nat → List (Int × D) → List (Int × D)) (fuel : Nat)
    (hnn : NonNeg graph) (hord : OrderOK order) (hfuel : edgeCount graph + 2 ≤ fuel) :
    ∃ t, Dijkstra graph start order fuel = some t := by
  obtain ⟨t, hrun, -⟩ := Dijkstra_final graph start hnn order hord fuel hfuel
  exact ⟨t, hrun⟩

theorem C6_witness :
    NonNeg selfLoopCycle ∧ OrderOK (storedOrder : Nat → List (Int × WithTop ℤ) → _) ∧
    edgeCount selfLoopCycle + 2 ≤ 5 ∧
    (∃ t, Dijkstra selfLoopCycle 0 storedOrder 5 = some t) ∧
    (Dijkstra selfLoopCycle 0 storedOrder 5).map (fun t => [t 0, t 1]) =
      some [some 0, some 0] :=
  ⟨by unfold NonNeg; decide, orderOK_storedOrder, by decide,
    C6_main_loop_terminates selfLoopCycle 0 storedOrder 5 (by unfold NonNeg; decide)
      orderOK_storedOrder (by decide),
    by decide⟩

theorem sameMap_symm {g1 g2 : Graph D} (h : SameMap g1 g2) : SameMap g2 g1 :=
  ⟨fun n => (h.1 n).symm, fun n => (h.2 n).symm⟩

theorem final_le_of_sameMap {g1 g2 : Graph D} (hsame : SameMap g1 g2) {start : Int}
    {t1 t2 : Distances D} (h1 : Final g1 start t1) (h2 : Final g2 start t2)
    (n : Int) (d1 d2 : D) (e1 : t1 n = some d1) (e2 : t2 n = some d2) : d1 ≤ d2 := by
  rcases final_sound h2 n d2 e2 with htop | ⟨es, hes, hw⟩
  · rw [htop]; exact le_top
  · have hp := isPath_sameMap (sameMap_symm hsame) es start n hes
    have := final_lower_start h1 es n hp
    rwa [read_of_some e1, hw] at this

/-- C7: with non-negative weights the returned table does not depend on enumeration order:
two runs on stored forms of the same map (same keys, and under every key the same inner map
up to order), each with its own order of ranging over neighbours in every round, return
the same table. -/
theorem C7_table_independent_of_enumeration_order (g1 g2 : Graph D) (start : Int)
    (order1 order2 : Nat → List (Int × D) → List (Int × D)) (fuel1 fuel2 : Nat)
    (hsame : SameMap g1 g2) (hnn1 : NonNeg g1) (hnn2 : NonNeg g2)
    (hord1 : OrderOK order1) (hord2 : OrderOK order2)
    (hfuel1 : edgeCount g1 + 2 ≤ fuel1) (hfuel2 : edgeCount g2 + 2 ≤ fuel2) :
    ∃ t, Dijkstra g1 start order1 fuel1 = some t ∧ Dijkstra g2 start order2 fuel2 = some t := by
  obtain ⟨t1, hrun1, hfin1⟩ := Dijkstra_final g1 start hnn1 order1 hord1 fuel1 hfuel1
  obtain ⟨t2, hrun2, hfin2⟩ := Dijkstra_final g2 start hnn2 order2 hord2 fuel2 hfuel2
  refine ⟨t1, hrun1, ?_⟩
  rw [hrun2]
  congr 1
  funext n
  have hdom : t2 n ≠ none ↔ t1 n ≠ none := by
    rw [final_dom hfin1, final_dom hfin2, hsame.1 n]
  cases e1 : t1 n with
  | none =>
    cases e2 : t2 n with
    | none => rfl
    | some d2 => exact absurd e1 (hdom.mp (by simp [e2]))
  | some d1 =>
    cases e2 : t2 n with
    | none => exact absurd e2 (hdom.mpr (by simp [e1]))
    | some d2 =>
      have ha := final_le_of_sameMap hsame hfin1 hfin2 n d1 d2 e1 e2
      have hb := final_le_of_sameMap (sameMap_symm hsame) hfin2 hfin1 n d2 d1 e2 e1
      rw [le_antisymm ha hb]

theorem orderOK_reversedOrder : OrderOK reversedOrder := by
  intro k l
  unfold reversedOrder
  split
  · exact List.reverse_perm l
  · exact List.Perm.refl l

theorem sameMap_scenario1 : SameMap scenario1 scenario1Reordered := by
  constructor
  · intro n
    simp only [Graph.keys, scenario1, scenario1Reordered, List.map_cons, List.map_nil,
      List.mem_cons, List.mem_singleton, List.not_mem_nil, or_false]
    omega
  · intro n
    by_cases h0 : n = 0
    · subst h0; decide
    by_cases h1 : n = 1
    · subst h1; decide
    by_cases h2 : n = 2
    · subst h2; decide
    by_cases h3 : n = 3
    · subst h3; decide
    have k1 : n ∉ scenario1.keys := by
      simp only [Graph.keys, scenario1, List.map_cons, List.map_nil, List.mem_cons,
        List.mem_singleton, List.not_mem_nil, or_false]
      omega
    have k2 : n ∉ scenario1Reordered.keys := by
      simp only [Graph.keys, scenario1Reordered, List.map_cons, List.map_nil, List.mem_cons,
        List.mem_singleton, List.not_mem_nil, or_false]
      omega
    rw [neighbors_nil_of_not_key _ n k1, neighbors_nil_of_not_key _ n k2]

theorem C7_witness :
    SameMap scenario1 scenario1Reordered ∧ NonNeg scenario1 ∧ NonNeg scenario1Reordered ∧
    OrderOK (storedOrder : Nat → List (Int × WithTop ℤ) → _) ∧ OrderOK reversedOrder ∧
    edgeCount scenario1 + 2 ≤ 7 ∧ edgeCount scenario1Reordered + 2 ≤ 9 ∧
    (∃ t, Dijkstra scenario1 0 storedOrder 7 = some t ∧
      Dijkstra scenario1Reordered 0 reversedOrder 9 = some t) :=
  ⟨sameMap_scenario1, by unfold NonNeg; decide, by unfold NonNeg; decide, orderOK_storedOrder,
    orderOK_reversedOrder, by decide, by decide,
    C7_table_independent_of_enumeration_order scenario1 scenario1Reordered 0 storedOrder
      reversedOrder 7 9 sameMap_scenario1 (by unfold NonNeg; decide) (by unfold NonNeg; decide)
      orderOK_storedOrder orderOK_reversedOrder (by decide) (by decide)⟩

end

section

variable {D : Type} [LinearOrder D] [Zero D]

theorem heap_Pop_singleton (x : Item D) :
    heap.Pop [x] = some ({ x with index := -1 }, []) := by
  simp [heap.Pop, PriorityQueue.Len, PriorityQueue.Swap, heap.down, heap.downLoop,
    PriorityQueue.Pop]

end

section

variable {D : Type} [LinearOrderedAddCommMonoidWithTop D]

/-- C8: for every graph, whatever its weights, and every start that is not a top-level key,
Dijkstra returns a table, and that table maps start to 0, every top-level key to positive
infinity and has no other entry; two rounds of fuel are enough. -/
theorem C8_start_absent_from_keys (graph : Graph D) (start : Int)
    (order : Nat → List (Int × D) → List (Int × D)) (fuel : Nat)
    (hstart : start ∉ graph.keys) (hord : OrderOK order) (hfuel : 2 ≤ fuel) :
    Dijkstra graph start order fuel =
      some (fun n => if n = start then some 0 else if n ∈ graph.keys then some ⊤ else none) := by
  obtain ⟨f, rfl⟩ : ∃ f, fuel = f + 2 := ⟨fuel - 2, by omega⟩
  have hnil : order 0 (graph.neighbors start) = [] := by
    rw [neighbors_nil_of_not_key graph start hstart]
    exact List.Perm.eq_nil (hord 0 [])
  have htab : (initDistances graph Distances.empty).write start 0 =
      (fun n => if n = start then some 0 else if n ∈ graph.keys then some ⊤ else none) := by
    funext n
    simp only [Distances.write, initDistances_apply, Distances.empty]
  simp only [Dijkstra, initState_eq, mainLoop, PriorityQueue.Len, List.length_singleton,
    iteration, heap_Pop_singleton, hnil, relax, List.length_nil, htab]
  simp

theorem C8_witness :
    ((5 : Int) ∉ negativeWeights.keys ∧
      OrderOK (storedOrder : Nat → List (Int × WithTop ℤ) → _) ∧ 2 ≤ 2 ∧
      Dijkstra negativeWeights 5 storedOrder 2 =
        some (fun n => if n = 5 then some 0
          else if n ∈ negativeWeights.keys then some ⊤ else none)) ∧
    Dijkstra ([] : Graph (WithTop ℤ)) 7 storedOrder 2 =
      some (fun n => if n = 7 then some 0 else none) :=
  ⟨⟨by decide, orderOK_storedOrder, by decide,
      C8_start_absent_from_keys negativeWeights 5 storedOrder 2 (by decide)
        orderOK_storedOrder (by decide)⟩,
    by
      have h := C8_start_absent_from_keys ([] : Graph (WithTop ℤ)) 7 storedOrder 2
        (by decide) orderOK_storedOrder (by decide)
      simpa [Graph.keys] using h⟩

end

/-! ### The selector (C9, C10) -/

section

variable {D : Type} [LinearOrder D] [Zero D]

theorem isHeap_nil : IsHeap ([] : PriorityQueue D) := by
  intro k _ hk
  simp at hk

theorem fromEmpty_isHeap {h : PriorityQueue D} (hfrom : FromEmpty h) : IsHeap h := by
  induction hfrom with
  | empty => exact isHeap_nil
  | push h h1 x _ hpush ih =>
    obtain ⟨h2, hp, -, -, hheap⟩ := heap_Push_spec h x ih
    rw [hp] at hpush
    exact (Option.some.inj hpush) ▸ hheap
  | pop h h1 it _ hpop ih =>
    by_cases hne : 0 < h.length
    · obtain ⟨it2, h2, hp, -, hheap, -, -⟩ := heap_Pop_spec h ih hne
      rw [hp] at hpop
      have := Option.some.inj hpop
      exact (Prod.mk.inj this).2 ▸ hheap
    · have h0 : h.Len = 0 := by
        simp only [PriorityQueue.Len]; omega
      simp [heap.Pop, h0] at hpop

end

section

variable {D : Type} [LinearOrderedAddCommMonoidWithTop D]

theorem fromEmpty_exampleQueue : FromEmpty exampleQueue :=
  FromEmpty.pop queueFour exampleQueue { node := 1, priority := 2, index := -1 }
    (FromEmpty.push queueThree queueFour { node := 1, priority := 2, index := 0 }
      (FromEmpty.push queueTwo queueThree { node := 1, priority := 5, index := 0 }
        (FromEmpty.push queueOne queueTwo { node := 2, priority := 3, index := 0 }
          (FromEmpty.push [] queueOne { node := 1, priority := 5, index := 0 } FromEmpty.empty
            (by decide))
          (by decide))
        (by decide))
      (by decide))
    (by decide)

/-- C9: on a non-empty queue obtained from the empty queue by heap.Push and heap.Pop,
heap.Pop returns an entry of the queue whose priority is at most the priority of every
entry, and the (node, priority) pairs left are the previous ones minus the returned pair. -/
theorem C9_heap_Pop_removes_a_least_entry (h : PriorityQueue D) (hfrom : FromEmpty h)
    (hne : 0 < h.Len) :
    ∃ it h1, heap.Pop h = some (it, h1) ∧ (it.node, it.priority) ∈ h.pairs ∧
      (∀ e ∈ h, it.priority ≤ e.priority) ∧
      (h1.pairs : Multiset (Int × D)) =
        (h.pairs : Multiset (Int × D)).erase (it.node, it.priority) ∧
      h1.Len + 1 = h.Len := by
  obtain ⟨it, h1, hpop, hlen, -, hperm, hmin⟩ := heap_Pop_spec h (fromEmpty_isHeap hfrom) hne
  refine ⟨it, h1, hpop, (hperm.mem_iff).mpr (List.mem_cons_self _ _), hmin, ?_, hlen⟩
  have : (h.pairs : Multiset (Int × D)) = (it.node, it.priority) ::ₘ (h1.pairs : Multiset _) := by
    rw [Multiset.cons_coe]
    exact Multiset.coe_eq_coe.mpr hperm
  rw [this, Multiset.erase_cons_head]

theorem C9_witness :
    FromEmpty exampleQueue ∧ 0 < exampleQueue.Len ∧
    (∃ it h1, heap.Pop exampleQueue = some (it, h1) ∧
      (it.node, it.priority) ∈ exampleQueue.pairs ∧
      (∀ e ∈ exampleQueue, it.priority ≤ e.priority) ∧
      (h1.pairs : Multiset (Int × WithTop ℤ)) =
        (exampleQueue.pairs : Multiset (Int × WithTop ℤ)).erase (it.node, it.priority) ∧
      h1.Len + 1 = exampleQueue.Len) ∧
    heap.Pop exampleQueue =
      some ({ node := 2, priority := 3, index := -1 },
        [{ node := 1, priority := 5, index := 0 }, { node := 1, priority := 5, index := 1 }]) :=
  ⟨fromEmpty_exampleQueue, by decide,
    C9_heap_Pop_removes_a_least_entry exampleQueue fromEmpty_exampleQueue (by decide),
    by decide⟩

/-- C10: on a queue obtained from the empty queue by heap.Push and heap.Pop, heap.Push adds
exactly one entry and drops or replaces none, also when the node is already queued: the
(node, priority) pairs afterwards are the previous ones plus the new pair, and Len grows
by one. -/
theorem C10_heap_Push_adds_exactly_one_entry (h : PriorityQueue D) (hfrom : FromEmpty h)
    (x : Item D) :
    ∃ h1, heap.Push h x = some h1 ∧
      (h1.pairs : Multiset (Int × D)) = (x.node, x.priority) ::ₘ (h.pairs : Multiset (Int × D)) ∧
      h1.Len = h.Len + 1 := by
  obtain ⟨h1, hpush, hlen, hperm, -⟩ := heap_Push_spec h x (fromEmpty_isHeap hfrom)
  refine ⟨h1, hpush, ?_, hlen⟩
  rw [Multiset.cons_coe]
  exact Multiset.coe_eq_coe.mpr hperm

theorem C10_witness :
    FromEmpty exampleQueue ∧
    (∃ h1, heap.Push exampleQueue { node := 1, priority := 5, index := 0 } = some h1 ∧
      (h1.pairs : Multiset (Int × WithTop ℤ)) =
        ((1 : Int), (5 : WithTop ℤ)) ::ₘ (exampleQueue.pairs : Multiset (Int × WithTop ℤ)) ∧
      h1.Len = exampleQueue.Len + 1) ∧
    heap.Push exampleQueue { node := 1, priority := 1, index := 0 } =
      some [{ node := 1, priority := 1, index := 0 }, { node := 2, priority := 3, index := 1 },
        { node := 1, priority := 5, index := 2 }, { node := 1, priority := 5, index := 3 }] :=
  ⟨fromEmpty_exampleQueue,
    C10_heap_Push_adds_exactly_one_entry exampleQueue fromEmpty_exampleQueue
      { node := 1, priority := 5, index := 0 },
    by decide⟩

end

/-! ### Rounds of the main loop -/

section

variable {D : Type} [LinearOrder D] [Add D] [Zero D] [Top D]

theorem rounds_zero (graph : Graph D) (order : Nat → List (Int × D) → List (Int × D))
    (k : Nat) (s : State D) : rounds graph order 0 k s = some s := rfl

theorem rounds_succ (graph : Graph D) (order : Nat → List (Int × D) → List (Int × D))
    (n k : Nat) (s : State D) :
    rounds graph order (n + 1) k s =
      if s.pq.Len > 0 then
        match iteration graph (order k) s with
        | none => none
        | some s1 => rounds graph order n (k + 1) s1
      else some s := rfl

theorem rounds_of_empty (graph : Graph D) (order : Nat → List (Int × D) → List (Int × D))
    (n k : Nat) (s : State D) (h : ¬ s.pq.Len > 0) : rounds graph order n k s = some s := by
  cases n with
  | zero => rfl
  | succ n => rw [rounds_succ, if_neg h]

theorem rounds_add (graph : Graph D) (order : Nat → List (Int × D) → List (Int × D)) :
    ∀ (a b k : Nat) (s : State D),
      rounds graph order (a + b) k s =
        match rounds graph order a k s with
        | none => none
        | some s1 => rounds graph order b (k + a) s1 := by
  intro a
  induction a with
  | zero => intro b k s; simp [rounds_zero]
  | succ a ih =>
    intro b k s
    have e : a + 1 + b = (a + b) + 1 := by omega
    rw [e, rounds_succ, rounds_succ]
    by_cases hne : s.pq.Len > 0
    · simp only [hne, if_true]
      cases hit : iteration graph (order k) s with
      | none => rfl
      | some s1 =>
        simp only []
        rw [ih b (k + 1) s1]
        have e2 : k + 1 + a = k + (a + 1) := by omega
        rw [e2]
    · simp only [hne, if_false]
      exact (rounds_of_empty graph order b _ s hne).symm

theorem mainLoop_succ (graph : Graph D) (order : Nat → List (Int × D) → List (Int × D))
    (fuel k : Nat) (s : State D) :
    mainLoop graph order (fuel + 1) k s =
      if s.pq.Len > 0 then
        match iteration graph (order k) s with
        | none => none
        | some s1 => mainLoop graph order fuel (k + 1) s1
      else some s.distances := rfl

theorem mainLoop_rounds (graph : Graph D) (order : Nat → List (Int × D) → List (Int × D)) :
    ∀ (fuel k : Nat) (s : State D),
      mainLoop graph order (fuel + 1) k s =
        match rounds graph order fuel k s with
        | none => none
        | some s1 => if s1.pq.Len > 0 then none else some s1.distances := by
  intro fuel
  induction fuel with
  | zero =>
    intro k s
    simp only [mainLoop, rounds_zero]
    by_cases hne : s.pq.Len > 0
    · simp only [hne, if_true]
      cases iteration graph (order k) s <;> rfl
    · simp only [hne, if_false]
  | succ fuel ih =>
    intro k s
    rw [rounds_succ]
    by_cases hne : s.pq.Len > 0
    · rw [mainLoop_succ]
      simp only [hne, if_true]
      cases hit : iteration graph (order k) s with
      | none => rfl
      | some s1 => exact ih (k + 1) s1
    · rw [mainLoop_succ]
      simp only [hne, if_false]

theorem stateAfter_eq (graph : Graph D) (start : Int)
    (order : Nat → List (Int × D) → List (Int × D)) (n : Nat) :
    stateAfter graph start order n =
      rounds graph order n 0
        ⟨(initDistances graph Distances.empty).write start 0,
          [{ node := start, priority := 0, index := 0 }]⟩ := by
  simp only [stateAfter, initState_eq]

theorem stateAfter_add (graph : Graph D) (start : Int)
    (order : Nat → List (Int × D) → List (Int × D)) (a b : Nat) :
    stateAfter graph start order (a + b) =
      match stateAfter graph start order a with
      | none => none
      | some s1 => rounds graph order b a s1 := by
  rw [stateAfter_eq, stateAfter_eq, rounds_add]
  simp

theorem Dijkstra_rounds (graph : Graph D) (start : Int)
    (order : Nat → List (Int × D) → List (Int × D)) (fuel : Nat) :
    Dijkstra graph start order (fuel + 1) =
      match stateAfter graph start order fuel with
      | none => none
      | some s1 => if s1.pq.Len > 0 then none else some s1.distances := by
  rw [stateAfter_eq]
  simp only [Dijkstra, initState_eq]
  exact mainLoop_rounds graph order fuel 0 _

end

/-! ### What holds along every run, whatever the weights -/

section

variable {D : Type} [LinearOrder D] [Add D] [Zero D] [Top D]

theorem relax_one (p : D) (v : Int) (w : D) (s : State D) :
    relax p [(v, w)] s =
      if p + w < s.distances.read v then
        match heap.Push s.pq { node := v, priority := p + w, index := 0 } with
        | none => none
        | some pq1 => some ⟨s.distances.write v (p + w), pq1⟩
      else some s := by
  rw [relax_cons]
  split
  · cases heap.Push s.pq { node := v, priority := p + w, index := 0 } <;> rfl
  · rfl

theorem relax_cons_bind (p : D) (vw : Int × D) (rest : List (Int × D)) (s : State D) :
    relax p (vw :: rest) s =
      match relax p [vw] s with
      | none => none
      | some s1 => relax p rest s1 := by
  obtain ⟨v, w⟩ := vw
  rw [relax_cons, relax_one]
  split
  · cases heap.Push s.pq { node := v, priority := p + w, index := 0 } <;> rfl
  · rfl

theorem neverIncreased_refl (s : State D) : NeverIncreased s s :=
  fun _ d h => ⟨d, h, le_refl d⟩

theorem neverIncreased_trans {s s1 s2 : State D} (h1 : NeverIncreased s s1)
    (h2 : NeverIncreased s1 s2) : NeverIncreased s s2 := by
  intro x d hx
  obtain ⟨d1, e1, l1⟩ := h1 x d hx
  obtain ⟨d2, e2, l2⟩ := h2 x d1 e1
  exact ⟨d2, e2, le_trans l2 l1⟩

theorem relax_one_spec (p : D) (v : Int) (w : D) (s : State D) (hheap : IsHeap s.pq)
    (hq : QueueBound s) :
    ∃ s1, relax p [(v, w)] s = some s1 ∧ IsHeap s1.pq ∧ QueueBound s1 ∧ NeverIncreased s s1 ∧
      (p + w < s.distances.read v →
        s1.distances = s.distances.write v (p + w) ∧
        heap.Push s.pq { node := v, priority := p + w, index := 0 } = some s1.pq ∧
        s1.pq.pairs.Perm ((v, p + w) :: s.pq.pairs)) ∧
      (¬ p + w < s.distances.read v → s1 = s) := by
  by_cases hlt : p + w < s.distances.read v
  · obtain ⟨pq1, hpush, -, hperm, hheap1⟩ :=
      heap_Push_spec s.pq { node := v, priority := p + w, index := 0 } hheap
    refine ⟨⟨s.distances.write v (p + w), pq1⟩, ?_, hheap1, ?_, ?_,
      fun _ => ⟨rfl, hpush, hperm⟩, fun h => absurd hlt h⟩
    · rw [relax_one, if_pos hlt, hpush]
    · intro q hmem
      rcases List.mem_cons.mp ((hperm.mem_iff).mp hmem) with h1 | h1
      · subst h1
        exact ⟨p + w, write_same _ _ _, le_refl _⟩
      · obtain ⟨d, hd, hle⟩ := hq q h1
        by_cases hqv : q.1 = v
        · refine ⟨p + w, by
            show (s.distances.write v (p + w)) q.1 = some (p + w)
            rw [hqv]; exact write_same _ _ _, ?_⟩
          rw [hqv] at hd
          rw [read_of_some hd] at hlt
          exact le_trans (le_of_lt hlt) hle
        · exact ⟨d, by
            show (s.distances.write v (p + w)) q.1 = some d
            rw [write_ne _ _ hqv]; exact hd, hle⟩
    · intro x d hx
      by_cases hxv : x = v
      · subst hxv
        rw [read_of_some hx] at hlt
        exact ⟨p + w, write_same _ _ _, le_of_lt hlt⟩
      · exact ⟨d, by
          show (s.distances.write v (p + w)) x = some d
          rw [write_ne _ _ hxv]; exact hx, le_refl d⟩
  · refine ⟨s, ?_, hheap, hq, neverIncreased_refl s, fun h => absurd h hlt, fun _ => rfl⟩
    rw [relax_one, if_neg hlt]

theorem relax_weak (p : D) :
    ∀ (l : List (Int × D)) (s : State D), IsHeap s.pq → QueueBound s →
      ∃ s1, relax p l s = some s1 ∧ IsHeap s1.pq ∧ QueueBound s1 ∧ NeverIncreased s s1 := by
  intro l
  induction l with
  | nil => intro s hh hq; exact ⟨s, rfl, hh, hq, neverIncreased_refl s⟩
  | cons vw rest ih =>
    intro s hh hq
    obtain ⟨v, w⟩ := vw
    obtain ⟨s1, h1, hh1, hq1, hm1, -, -⟩ := relax_one_spec p v w s hh hq
    obtain ⟨s2, h2, hh2, hq2, hm2⟩ := ih s1 hh1 hq1
    refine ⟨s2, ?_, hh2, hq2, neverIncreased_trans hm1 hm2⟩
    rw [relax_cons_bind, h1]
    exact h2

end

section

variable {D : Type} [LinearOrder D] [Zero D]

theorem heap_Pop_some_nonempty {h : PriorityQueue D} {r : Item D × PriorityQueue D}
    (hpop : heap.Pop h = some r) : 0 < h.length := by
  by_contra hne
  have h0 : h.Len = 0 := by
    simp only [PriorityQueue.Len]; omega
  simp [heap.Pop, h0] at hpop

theorem pop_facts (h : PriorityQueue D) (hheap : IsHeap h) (it : Item D)
    (pq1 : PriorityQueue D) (hpop : heap.Pop h = some (it, pq1)) :
    IsHeap pq1 ∧ h.pairs.Perm ((it.node, it.priority) :: pq1.pairs) ∧
      (∀ q ∈ h.pairs, it.priority ≤ q.2) ∧ pq1.length + 1 = h.length := by
  obtain ⟨it2, pq2, hp, hlen, hheap2, hperm, hmin⟩ :=
    heap_Pop_spec h hheap (heap_Pop_some_nonempty hpop)
  rw [hp] at hpop
  obtain ⟨e1, e2⟩ := Prod.mk.inj (Option.some.inj hpop)
  subst e1
  subst e2
  refine ⟨hheap2, hperm, ?_, hlen⟩
  intro q hmem
  obtain ⟨e, he, rfl⟩ := List.mem_map.mp hmem
  exact hmin e he

end

section

variable {D : Type} [LinearOrder D] [Add D] [Zero D] [Top D]

theorem pop_weak (s : State D) (hheap : IsHeap s.pq) (hq : QueueBound s) (it : Item D)
    (pq1 : PriorityQueue D) (hpop : heap.Pop s.pq = some (it, pq1)) :
    IsHeap pq1 ∧ QueueBound ⟨s.distances, pq1⟩ := by
  obtain ⟨hheap2, hperm, -, -⟩ := pop_facts s.pq hheap it pq1 hpop
  exact ⟨hheap2, fun q hmem => hq q ((hperm.mem_iff).mpr (List.mem_cons_of_mem _ hmem))⟩

theorem iteration_weak (graph : Graph D) (enumerate : List (Int × D) → List (Int × D))
    (s : State D) (hheap : IsHeap s.pq) (hq : QueueBound s) (hne : 0 < s.pq.length) :
    ∃ it pq1 s1, heap.Pop s.pq = some (it, pq1) ∧ iteration graph enumerate s = some s1 ∧
      IsHeap s1.pq ∧ QueueBound s1 ∧ NeverIncreased s s1 := by
  obtain ⟨it, pq1, hpop, -, -, -, -⟩ := heap_Pop_spec s.pq hheap hne
  obtain ⟨hheap1, hq1⟩ := pop_weak s hheap hq it pq1 hpop
  obtain ⟨s1, hrel, hh1, hq2, hm⟩ :=
    relax_weak it.priority (enumerate (graph.neighbors it.node)) ⟨s.distances, pq1⟩ hheap1 hq1
  refine ⟨it, pq1, s1, hpop, ?_, hh1, hq2, hm⟩
  simp only [iteration, hpop]
  exact hrel

theorem rounds_weak (graph : Graph D) (order : Nat → List (Int × D) → List (Int × D)) :
    ∀ (n k : Nat) (s : State D), IsHeap s.pq → QueueBound s →
      ∃ s1, rounds graph order n k s = some s1 ∧ IsHeap s1.pq ∧ QueueBound s1 ∧
        NeverIncreased s s1 := by
  intro n
  induction n with
  | zero => intro k s hh hq; exact ⟨s, rfl, hh, hq, neverIncreased_refl s⟩
  | succ n ih =>
    intro k s hh hq
    by_cases hne : s.pq.Len > 0
    · obtain ⟨it, pq1, s1, -, hit, hh1, hq1, hm1⟩ := iteration_weak graph (order k) s hh hq hne
      obtain ⟨s2, hr, hh2, hq2, hm2⟩ := ih (k + 1) s1 hh1 hq1
      refine ⟨s2, ?_, hh2, hq2, neverIncreased_trans hm1 hm2⟩
      rw [rounds_succ, if_pos hne, hit]
      exact hr
    · exact ⟨s, rounds_of_empty graph order _ k s hne, hh, hq, neverIncreased_refl s⟩

theorem init_weak (graph : Graph D) (start : Int) :
    IsHeap (State.pq (⟨(initDistances graph Distances.empty).write start 0,
        [{ node := start, priority := 0, index := 0 }]⟩ : State D)) ∧
      QueueBound (⟨(initDistances graph Distances.empty).write start 0,
        [{ node := start, priority := 0, index := 0 }]⟩ : State D) := by
  refine ⟨isHeap_singleton _, ?_⟩
  intro q hmem
  simp only [PriorityQueue.pairs, List.map_cons, List.map_nil, List.mem_singleton] at hmem
  subst hmem
  exact ⟨0, write_same _ _ _, le_refl _⟩

theorem stateAfter_weak (graph : Graph D) (start : Int)
    (order : Nat → List (Int × D) → List (Int × D)) (n : Nat) :
    ∃ s, stateAfter graph start order n = some s ∧ IsHeap s.pq ∧ QueueBound s := by
  obtain ⟨hh, hq⟩ := init_weak graph start
  obtain ⟨s, hr, hh1, hq1, -⟩ := rounds_weak graph order n 0 _ hh hq
  exact ⟨s, by rw [stateAfter_eq]; exact hr, hh1, hq1⟩

end

/-! ### The invariant along a run with non-negative weights -/

section

variable {D : Type} [LinearOrderedAddCommMonoidWithTop D]

theorem iteration_detail (graph : Graph D) (start : Int) (hnn : NonNeg graph)
    (enumerate : List (Int × D) → List (Int × D)) (henum : ∀ l, (enumerate l).Perm l)
    (S : List Int) (m : D) (s : State D) (hc : Core graph start S m s)
    (hcl : Closed graph S s) (it : Item D) (pq1 : PriorityQueue D)
    (hpop : heap.Pop s.pq = some (it, pq1)) :
    ∃ s1, iteration graph enumerate s = some s1 ∧
      Core graph start (it.node :: S) it.priority s1 ∧ Closed graph (it.node :: S) s1 ∧
      m ≤ it.priority ∧ (∀ x ∈ it.node :: S, s1.distances x = s.distances x) ∧
      ((it.node ∈ S ∨ s.distances.read it.node < it.priority) → s1 = ⟨s.distances, pq1⟩) := by
  obtain ⟨hheap, hperm, hminp, -⟩ := pop_facts s.pq hc.heap it pq1 hpop
  have hin : (it.node, it.priority) ∈ s.pq.pairs :=
    (hperm.mem_iff).mpr (List.mem_cons_self _ _)
  obtain ⟨hmp, hru⟩ := hc.qlow _ hin
  have hsub : ∀ q ∈ pq1.pairs, q ∈ s.pq.pairs := fun q hq =>
    (hperm.mem_iff).mpr (List.mem_cons_of_mem _ hq)
  have hc0 : Core graph start (it.node :: S) it.priority ⟨s.distances, pq1⟩ := by
    constructor
    · exact hheap
    · exact hc.dom
    · exact le_trans hc.mnn hmp
    · intro q hq
      exact ⟨hminp q (hsub q hq), (hc.qlow q (hsub q hq)).2⟩
    · exact hc.dstart
    · exact hc.sound
    · intro n d hnd hd
      rcases hc.pend n d hnd hd with h | h
      · exact Or.inl (List.mem_cons_of_mem _ h)
      · rcases List.mem_cons.mp ((hperm.mem_iff).mp h) with h1 | h1
        · left
          have : n = it.node := (Prod.mk.inj h1).1
          rw [this]
          exact List.mem_cons_self _ _
        · exact Or.inr h1
    · intro x hx
      rcases List.mem_cons.mp hx with h1 | h1
      · rw [h1]; exact hru
      · exact le_trans (hc.slow x h1) hmp
  have hiter : iteration graph enumerate s =
      relax it.priority (enumerate (graph.neighbors it.node)) ⟨s.distances, pq1⟩ := by
    simp only [iteration, hpop]
  have hlmem : ∀ vw, vw ∈ enumerate (graph.neighbors it.node) ↔ vw ∈ graph.neighbors it.node :=
    fun vw => (henum _).mem_iff
  have hfresh : it.node ∉ S → ∀ d, s.distances it.node = some d → d = it.priority := by
    intro huS d hdu
    have h1 : d ≤ it.priority := by
      rw [read_of_some hdu] at hru; exact hru
    rcases lt_or_eq_of_le h1 with h2 | h2
    · exfalso
      have hdtop : d ≠ ⊤ := ne_top_of_lt h2
      rcases hc.pend it.node d hdu hdtop with h3 | h3
      · exact huS h3
      · exact not_lt.mpr (hminp _ h3) h2
    · exact h2
  by_cases huS : it.node ∈ S
  · refine ⟨⟨s.distances, pq1⟩, ?_, hc0, ?_, hmp, fun _ _ => rfl, fun _ => rfl⟩
    · rw [hiter]
      apply relax_noop
      intro vw hvw
      have h1 := hcl it.node huS vw ((hlmem vw).mp hvw)
      exact not_lt.mpr (le_trans h1 (add_le_add_right hru _))
    · intro x hx vw hvw
      rcases List.mem_cons.mp hx with h1 | h1
      · rw [h1] at hvw ⊢
        exact hcl it.node huS vw hvw
      · exact hcl x h1 vw hvw
  · cases hdu : s.distances it.node with
    | none =>
      have hnk : it.node ∉ graph.keys := by
        intro hk
        exact (hc.dom it.node).mpr (Or.inr hk) hdu
      have hnil : enumerate (graph.neighbors it.node) = [] := by
        rw [neighbors_nil_of_not_key graph it.node hnk]
        exact List.Perm.eq_nil (henum [])
      refine ⟨⟨s.distances, pq1⟩, ?_, hc0, ?_, hmp, fun _ _ => rfl, fun _ => rfl⟩
      · rw [hiter, hnil]
        rfl
      · intro x hx vw hvw
        rcases List.mem_cons.mp hx with h1 | h1
        · rw [h1, neighbors_nil_of_not_key graph it.node hnk] at hvw
          exact absurd hvw (List.not_mem_nil _)
        · exact hcl x h1 vw hvw
    | some d =>
      have hd : d = it.priority := hfresh huS d hdu
      rw [hd] at hdu
      obtain ⟨s1, hrel, hc1, hmono, hsame, hdone, -⟩ :=
        relax_spec graph start (it.node :: S) it.priority it.node (List.mem_cons_self _ _)
          (enumerate (graph.neighbors it.node)) ⟨s.distances, pq1⟩
          (fun vw hvw => (hlmem vw).mp hvw)
          (fun vw hvw => nonneg_neighbors hnn it.node vw ((hlmem vw).mp hvw)) hc0 hdu
      have hread : ∀ x ∈ it.node :: S, s1.distances.read x = s.distances.read x := by
        intro x hx
        simp only [Distances.read, hsame x hx]
      refine ⟨s1, ?_, hc1, ?_, hmp, hsame, ?_⟩
      · rw [hiter]; exact hrel
      · intro x hx vw hvw
        rcases List.mem_cons.mp hx with h1 | h1
        · rw [h1] at hvw ⊢
          have h2 := hdone vw ((hlmem vw).mpr hvw)
          have h3 : s1.distances.read it.node = it.priority := by
            rw [hread it.node (List.mem_cons_self _ _)]
            exact read_of_some hdu
          rw [h3]
          exact h2
        · rw [hread x hx]
          exact le_trans (hmono vw.1) (hcl x h1 vw hvw)
      · intro hor
        rcases hor with h1 | h1
        · exact absurd h1 huS
        · rw [read_of_some hdu] at h1
          exact absurd h1 (lt_irrefl _)

theorem rounds_core (graph : Graph D) (start : Int) (hnn : NonNeg graph)
    (order : Nat → List (Int × D) → List (Int × D)) (hord : OrderOK order) :
    ∀ (n k : Nat) (s : State D) (S : List Int) (m : D),
      Core graph start S m s → Closed graph S s →
      ∃ s1 S1 m1, rounds graph order n k s = some s1 ∧ Core graph start S1 m1 s1 ∧
        Closed graph S1 s1 ∧ (∀ x ∈ S, x ∈ S1) ∧ m ≤ m1 ∧
        (∀ x ∈ S, s1.distances x = s.distances x) := by
  intro n
  induction n with
  | zero =>
    intro k s S m hc hcl
    exact ⟨s, S, m, rfl, hc, hcl, fun _ h => h, le_refl _, fun _ _ => rfl⟩
  | succ n ih =>
    intro k s S m hc hcl
    by_cases hne : s.pq.Len > 0
    · obtain ⟨it, pq1, hpop, -, -, -, -⟩ := heap_Pop_spec s.pq hc.heap hne
      obtain ⟨s1, hit, hc1, hcl1, hm1, hsame1, -⟩ :=
        iteration_detail graph start hnn (order k) (hord k) S m s hc hcl it pq1 hpop
      obtain ⟨s2, S2, m2, hr, hc2, hcl2, hsub2, hm2, hsame2⟩ := ih (k + 1) s1 _ _ hc1 hcl1
      refine ⟨s2, S2, m2, ?_, hc2, hcl2, fun x hx => hsub2 x (List.mem_cons_of_mem _ hx),
        le_trans hm1 hm2, ?_⟩
      · rw [rounds_succ, if_pos hne, hit]
        exact hr
      · intro x hx
        rw [hsame2 x (List.mem_cons_of_mem _ hx), hsame1 x (List.mem_cons_of_mem _ hx)]
    · exact ⟨s, S, m, rounds_of_empty graph order _ k s hne, hc, hcl, fun _ h => h, le_refl _,
        fun _ _ => rfl⟩

theorem stateAfter_core (graph : Graph D) (start : Int) (hnn : NonNeg graph)
    (order : Nat → List (Int × D) → List (Int × D)) (hord : OrderOK order) (n : Nat) :
    ∃ s S m, stateAfter graph start order n = some s ∧ Core graph start S m s ∧
      Closed graph S s := by
  obtain ⟨s, S, m, hr, hc, hcl, -, -, -⟩ :=
    rounds_core graph start hnn order hord n 0 _ [] 0 (init_core graph start)
      (fun x hx => absurd hx (List.not_mem_nil _))
  exact ⟨s, S, m, by rw [stateAfter_eq]; exact hr, hc, hcl⟩

end

/-! ### Properties of runs (C11 to C17) -/

section

variable {D : Type} [LinearOrder D] [Add D] [Zero D] [Top D]

theorem stateAfter_getD (graph : Graph D) (start : Int)
    (order : Nat → List (Int × D) → List (Int × D)) (n : Nat) :
    stateAfter graph start order n =
      some ((stateAfter graph start order n).getD ⟨Distances.empty, []⟩) := by
  obtain ⟨s, hs, -, -⟩ := stateAfter_weak graph start order n
  rw [hs]
  rfl

theorem stateAfter_succ (graph : Graph D) (start : Int)
    (order : Nat → List (Int × D) → List (Int × D)) (n : Nat) (s : State D)
    (hs : stateAfter graph start order n = some s) (hne : 0 < s.pq.Len) :
    stateAfter graph start order (n + 1) = iteration graph (order n) s := by
  rw [stateAfter_add, hs]
  simp only [rounds_succ, hne, if_true, rounds_zero]
  cases iteration graph (order n) s <;> rfl

theorem stateAfter_of_ended (graph : Graph D) (start : Int)
    (order : Nat → List (Int × D) → List (Int × D)) (n j : Nat) (s : State D)
    (hs : stateAfter graph start order n = some s) (hne : ¬ 0 < s.pq.Len) :
    stateAfter graph start order (n + j) = some s := by
  rw [stateAfter_add, hs]
  exact rounds_of_empty graph order j n s hne

end

section

variable {D : Type} [LinearOrderedAddCommMonoidWithTop D]

/-- C11: for every graph, whatever its weights, and every start, no table entry is removed
or increased along a run: every entry present after n rounds is still present after any
later number of rounds, with a value that is less than or equal to the earlier one. -/
theorem C11_table_entries_never_increase (graph : Graph D) (start : Int)
    (order : Nat → List (Int × D) → List (Int × D)) (n j : Nat) :
    ∃ s s1, stateAfter graph start order n = some s ∧
      stateAfter graph start order (n + j) = some s1 ∧
      ∀ x d, s.distances x = some d → ∃ d1, s1.distances x = some d1 ∧ d1 ≤ d := by
  obtain ⟨s, hs, hh, hq⟩ := stateAfter_weak graph start order n
  obtain ⟨s1, hr, -, -, hm⟩ := rounds_weak graph order j n s hh hq
  refine ⟨s, s1, hs, ?_, hm⟩
  rw [stateAfter_add, hs]
  exact hr

/-- C12: with non-negative weights, when the entry extracted in some round of a run is
stale, its priority being strictly greater than the table value of its node at that time,
the round changes no table entry and inserts nothing: the next loop state has the same
table and the queue that the extraction left. -/
theorem C12_stale_entry_has_no_effect (graph : Graph D) (start : Int)
    (order : Nat → List (Int × D) → List (Int × D)) (n : Nat) (s : State D) (it : Item D)
    (pq1 : PriorityQueue D) (hnn : NonNeg graph) (hord : OrderOK order)
    (hstate : stateAfter graph start order n = some s)
    (hpop : heap.Pop s.pq = some (it, pq1))
    (hstale : s.distances.read it.node < it.priority) :
    iteration graph (order n) s = some ⟨s.distances, pq1⟩ ∧
      stateAfter graph start order (n + 1) = some ⟨s.distances, pq1⟩ := by
  obtain ⟨s0, S, m, hs0, hc, hcl⟩ := stateAfter_core graph start hnn order hord n
  rw [hstate] at hs0
  obtain rfl := Option.some.inj hs0
  obtain ⟨s1, hit, -, -, -, -, hnoop⟩ :=
    iteration_detail graph start hnn (order n) (hord n) S m s hc hcl it pq1 hpop
  rw [hnoop (Or.inr hstale)] at hit
  refine ⟨hit, ?_⟩
  rw [stateAfter_succ graph start order n s hstate (heap_Pop_some_nonempty hpop)]
  exact hit

theorem C12_witness :
    NonNeg scenario1 ∧ OrderOK (storedOrder : Nat → List (Int × WithTop ℤ) → _) ∧
    stateAfter scenario1 0 storedOrder 3 = some staleState ∧
    heap.Pop staleState.pq =
      some ({ node := 1, priority := 4, index := -1 },
        [{ node := 3, priority := 4, index := 0 }, { node := 3, priority := 6, index := 1 }]) ∧
    staleState.distances.read 1 < 4 ∧
    (iteration scenario1 (storedOrder 3) staleState =
        some ⟨staleState.distances,
          [{ node := 3, priority := 4, index := 0 }, { node := 3, priority := 6, index := 1 }]⟩ ∧
      stateAfter scenario1 0 storedOrder (3 + 1) =
        some ⟨staleState.distances,
          [{ node := 3, priority := 4, index := 0 }, { node := 3, priority := 6, index := 1 }]⟩) :=
  ⟨by unfold NonNeg; decide, orderOK_storedOrder, stateAfter_getD _ _ _ _, by decide, by decide,
    C12_stale_entry_has_no_effect scenario1 0 storedOrder 3 staleState
      { node := 1, priority := 4, index := -1 }
      [{ node := 3, priority := 4, index := 0 }, { node := 3, priority := 6, index := 1 }]
      (by unfold NonNeg; decide) orderOK_storedOrder (stateAfter_getD _ _ _ _) (by decide)
      (by decide)⟩

theorem C13_counterexample :
    danglingEntry.distances 1 = none ∧ (0 : WithTop ℤ) + 1 ≠ ⊤ ∧
    ¬ ((0 : WithTop ℤ) + 1 < danglingEntry.distances.read 1) ∧
    (relax 0 [(1, 1)] ⟨danglingEntry.distances, []⟩).map (fun s1 => (s1.pq, s1.distances 1)) =
      some ([], none) ∧
    (stateAfter danglingTarget 0 storedOrder 1).map (fun s => (s.pq, s.distances 1)) =
      some ([], none) ∧
    (Dijkstra danglingTarget 0 storedOrder 3).map (fun t => [t 0, t 1]) =
      some [some 0, none] := by
  refine ⟨by decide, by decide, by decide, by decide, by decide, by decide⟩

/-- C13 (amended): in the relaxation step a neighbour that has no entry in the table is read
as recorded distance 0, the zero value of a missing key: the improvement test succeeds
exactly when the candidate is below 0, and for a candidate that is at least 0 the neighbour
is passed over, with no table entry set and nothing inserted.  With non-negative weights
every node held in the selector during a run has a table entry and is start or a key. -/
theorem C13_missing_neighbour_reads_as_zero (graph : Graph D) (start : Int)
    (order : Nat → List (Int × D) → List (Int × D)) (hnn : NonNeg graph)
    (hord : OrderOK order) :
    (∀ (s : State D) (p w : D) (v : Int) (rest : List (Int × D)), s.distances v = none →
      s.distances.read v = 0 ∧ (p + w < s.distances.read v ↔ p + w < 0) ∧
      (0 ≤ p + w → relax p ((v, w) :: rest) s = relax p rest s)) ∧
    (∀ n, ∃ s, stateAfter graph start order n = some s ∧
      ∀ q ∈ s.pq.pairs, s.distances q.1 ≠ none ∧ (q.1 = start ∨ q.1 ∈ graph.keys)) := by
  constructor
  · intro s p w v rest hmiss
    have hread : s.distances.read v = 0 := read_of_none hmiss
    refine ⟨hread, by rw [hread], ?_⟩
    intro hge
    rw [relax_cons, if_neg]
    rw [hread]
    exact not_lt.mpr hge
  · intro n
    obtain ⟨s, S, m, hs, hc, -⟩ := stateAfter_core graph start hnn order hord n
    obtain ⟨s2, hs2, -, hq⟩ := stateAfter_weak graph start order n
    rw [hs] at hs2
    obtain rfl := Option.some.inj hs2
    refine ⟨s, hs, ?_⟩
    intro q hmem
    obtain ⟨d, hd, -⟩ := hq q hmem
    have hne : s.distances q.1 ≠ none := by rw [hd]; simp
    exact ⟨hne, (hc.dom q.1).mp hne⟩

theorem C13_witness :
    NonNeg danglingTarget ∧ OrderOK (storedOrder : Nat → List (Int × WithTop ℤ) → _) ∧
    ((∀ (s : State (WithTop ℤ)) (p w : WithTop ℤ) (v : Int) (rest : List (Int × WithTop ℤ)),
      s.distances v = none →
      s.distances.read v = 0 ∧ (p + w < s.distances.read v ↔ p + w < 0) ∧
      (0 ≤ p + w → relax p ((v, w) :: rest) s = relax p rest s)) ∧
    (∀ n, ∃ s, stateAfter danglingTarget 0 storedOrder n = some s ∧
      ∀ q ∈ s.pq.pairs, s.distances q.1 ≠ none ∧ (q.1 = 0 ∨ q.1 ∈ danglingTarget.keys))) :=
  ⟨by unfold NonNeg; decide, orderOK_storedOrder,
    C13_missing_neighbour_reads_as_zero danglingTarget 0 storedOrder (by unfold NonNeg; decide)
      orderOK_storedOrder⟩

/-- C14: for every graph and start, every round of a run begins in a loop state that exists
(no call made so far has left the bounds of the slice); when its queue is non-empty,
heap.Pop and the whole round return a result and the run does not end there; when its
queue is empty the loop ends there and the table is returned. -/
theorem C14_extraction_only_from_nonempty_queue (graph : Graph D) (start : Int)
    (order : Nat → List (Int × D) → List (Int × D)) (n : Nat) :
    ∃ s, stateAfter graph start order n = some s ∧
      (0 < s.pq.Len → ∃ it pq1 s1, heap.Pop s.pq = some (it, pq1) ∧
        iteration graph (order n) s = some s1 ∧
        stateAfter graph start order (n + 1) = some s1 ∧
        Dijkstra graph start order (n + 1) = none) ∧
      (s.pq.Len = 0 → heap.Pop s.pq = none ∧
        Dijkstra graph start order (n + 1) = some s.distances ∧
        ∀ j, stateAfter graph start order (n + j) = some s) := by
  obtain ⟨s, hs, hh, hq⟩ := stateAfter_weak graph start order n
  refine ⟨s, hs, ?_, ?_⟩
  · intro hne
    obtain ⟨it, pq1, s1, hpop, hit, -, -, -⟩ := iteration_weak graph (order n) s hh hq hne
    refine ⟨it, pq1, s1, hpop, hit, ?_, ?_⟩
    · rw [stateAfter_succ graph start order n s hs hne]
      exact hit
    · rw [Dijkstra_rounds, hs]
      simp only [hne, if_true]
  · intro h0
    have hne : ¬ 0 < s.pq.Len := by omega
    refine ⟨by simp [heap.Pop, h0], ?_, fun j => stateAfter_of_ended graph start order n j s hs hne⟩
    rw [Dijkstra_rounds, hs]
    have : ¬ s.pq.Len > 0 := hne
    simp only [this, if_false]

end

section

variable {D : Type} [LinearOrder D] [Add D] [Zero D] [Top D]

theorem reachable_weak (graph : Graph D) (start : Int) (s : State D)
    (h : Reachable graph start s) : IsHeap s.pq ∧ QueueBound s := by
  induction h with
  | entry s hs =>
    rw [initState_eq] at hs
    obtain rfl := Option.some.inj hs
    exact init_weak graph start
  | extract s it pq1 _ hpop ih => exact pop_weak s ih.1 ih.2 it pq1 hpop
  | relaxed s s1 p vw _ hrel ih =>
    obtain ⟨v, w⟩ := vw
    obtain ⟨s2, h2, hh, hq, -, -, -⟩ := relax_one_spec p v w s ih.1 ih.2
    rw [h2] at hrel
    obtain rfl := Option.some.inj hrel
    exact ⟨hh, hq⟩

theorem relax_reachable (graph : Graph D) (start : Int) (p : D) :
    ∀ (l : List (Int × D)) (s s1 : State D), Reachable graph start s →
      relax p l s = some s1 → Reachable graph start s1 := by
  intro l
  induction l with
  | nil =>
    intro s s1 hr h
    obtain rfl := Option.some.inj h
    exact hr
  | cons vw rest ih =>
    intro s s1 hr h
    rw [relax_cons_bind] at h
    cases h1 : relax p [vw] s with
    | none => rw [h1] at h; exact absurd h (by simp)
    | some s2 =>
      rw [h1] at h
      exact ih s2 s1 (Reachable.relaxed s s2 p vw hr h1) h

theorem rounds_reachable (graph : Graph D) (start : Int)
    (order : Nat → List (Int × D) → List (Int × D)) :
    ∀ (n k : Nat) (s s1 : State D), Reachable graph start s →
      rounds graph order n k s = some s1 → Reachable graph start s1 := by
  intro n
  induction n with
  | zero =>
    intro k s s1 hr h
    obtain rfl := Option.some.inj h
    exact hr
  | succ n ih =>
    intro k s s1 hr h
    rw [rounds_succ] at h
    by_cases hne : s.pq.Len > 0
    · simp only [hne, if_true] at h
      cases hit : iteration graph (order k) s with
      | none => rw [hit] at h; exact absurd h (by simp)
      | some s2 =>
        rw [hit] at h
        refine ih (k + 1) s2 s1 ?_ h
        simp only [iteration] at hit
        cases hpop : heap.Pop s.pq with
        | none => rw [hpop] at hit; exact absurd hit (by simp)
        | some r =>
          obtain ⟨it, pq1⟩ := r
          rw [hpop] at hit
          exact relax_reachable graph start it.priority _ _ s2
            (Reachable.extract s it pq1 hr hpop) hit
    · simp only [hne, if_false] at h
      obtain rfl := Option.some.inj h
      exact hr

theorem stateAfter_reachable (graph : Graph D) (start : Int)
    (order : Nat → List (Int × D) → List (Int × D)) (n : Nat) (s : State D)
    (h : stateAfter graph start order n = some s) : Reachable graph start s := by
  rw [stateAfter_eq] at h
  exact rounds_reachable graph start order n 0 _ s
    (Reachable.entry _ (initState_eq graph start)) h

end

section

variable {D : Type} [LinearOrderedAddCommMonoidWithTop D]

/-- C15: for every graph, whatever its weights, in every state met during a run every entry
(n, p) of the selector has a table entry for n that is at most p; a relaxation inserts an
entry exactly when the candidate is strictly below the recorded distance of the neighbour,
and it then sets the table entry of the neighbour to the inserted priority and adds that
one pair to the selector; otherwise it changes nothing. -/
theorem C15_queue_entries_bound_the_table (graph : Graph D) (start : Int) (s : State D)
    (hreach : Reachable graph start s) :
    (∀ q ∈ s.pq.pairs, ∃ d, s.distances q.1 = some d ∧ d ≤ q.2) ∧
    ∀ (p w : D) (v : Int), ∃ s1, relax p [(v, w)] s = some s1 ∧
      (p + w < s.distances.read v →
        s1.distances v = some (p + w) ∧ s1.distances.read v < s.distances.read v ∧
        s1.pq.pairs.Perm ((v, p + w) :: s.pq.pairs) ∧
        ∀ x, x ≠ v → s1.distances x = s.distances x) ∧
      (¬ p + w < s.distances.read v → s1 = s) := by
  obtain ⟨hh, hq⟩ := reachable_weak graph start s hreach
  refine ⟨hq, ?_⟩
  intro p w v
  obtain ⟨s1, h1, -, -, -, hins, hskip⟩ := relax_one_spec p v w s hh hq
  refine ⟨s1, h1, ?_, hskip⟩
  intro hlt
  obtain ⟨hd, -, hperm⟩ := hins hlt
  refine ⟨by rw [hd]; exact write_same _ _ _, ?_, hperm, ?_⟩
  · rw [read_of_some (by rw [hd]; exact write_same _ _ _ : s1.distances v = some (p + w))]
    exact hlt
  · intro x hx
    rw [hd]
    exact write_ne _ _ hx

theorem C15_witness :
    Reachable danglingTarget 0 danglingEntry ∧
    ((∀ q ∈ danglingEntry.pq.pairs, ∃ d, danglingEntry.distances q.1 = some d ∧ d ≤ q.2) ∧
    ∀ (p w : WithTop ℤ) (v : Int), ∃ s1, relax p [(v, w)] danglingEntry = some s1 ∧
      (p + w < danglingEntry.distances.read v →
        s1.distances v = some (p + w) ∧
        s1.distances.read v < danglingEntry.distances.read v ∧
        s1.pq.pairs.Perm ((v, p + w) :: danglingEntry.pq.pairs) ∧
        ∀ x, x ≠ v → s1.distances x = danglingEntry.distances x) ∧
      (¬ p + w < danglingEntry.distances.read v → s1 = danglingEntry)) :=
  ⟨Reachable.entry danglingEntry (initState_eq danglingTarget 0),
    C15_queue_entries_bound_the_table danglingTarget 0 danglingEntry
      (Reachable.entry danglingEntry (initState_eq danglingTarget 0))⟩

theorem extracted_some (graph : Graph D) (start : Int)
    (order : Nat → List (Int × D) → List (Int × D)) (n : Nat) (p : D)
    (h : extracted graph start order n = some p) :
    ∃ s it pq1, stateAfter graph start order n = some s ∧ heap.Pop s.pq = some (it, pq1) ∧
      it.priority = p := by
  unfold extracted at h
  cases hs : stateAfter graph start order n with
  | none => simp [hs] at h
  | some s =>
    cases hpop : heap.Pop s.pq with
    | none => simp [hs, hpop] at h
    | some r =>
      obtain ⟨it, pq1⟩ := r
      simp [hs, hpop] at h
      exact ⟨s, it, pq1, rfl, hpop, h⟩

/-- C16: with non-negative weights the priorities extracted over a run are non-decreasing:
the priority extracted in a round is at most the priority extracted in any later round. -/
theorem C16_extracted_priorities_nondecreasing (graph : Graph D) (start : Int)
    (order : Nat → List (Int × D) → List (Int × D)) (i j : Nat) (p q : D)
    (hnn : NonNeg graph) (hord : OrderOK order) (hij : i ≤ j)
    (hp : extracted graph start order i = some p)
    (hq : extracted graph start order j = some q) : p ≤ q := by
  rcases Nat.eq_or_lt_of_le hij with heq | hlt
  · subst heq
    rw [hp] at hq
    exact le_of_eq (Option.some.inj hq)
  · obtain ⟨c, rfl⟩ : ∃ c, j = i + 1 + c := ⟨j - (i + 1), by omega⟩
    obtain ⟨s, it, pq1, hs, hpop, rfl⟩ := extracted_some graph start order i p hp
    obtain ⟨sj, itj, pqj, hsj, hpopj, rfl⟩ := extracted_some graph start order _ q hq
    obtain ⟨s0, S, m, hs0, hc, hcl⟩ := stateAfter_core graph start hnn order hord i
    rw [hs] at hs0
    obtain rfl := Option.some.inj hs0
    obtain ⟨s1, hit, hc1, hcl1, -, -, -⟩ :=
      iteration_detail graph start hnn (order i) (hord i) S m s hc hcl it pq1 hpop
    have hs1 : stateAfter graph start order (i + 1) = some s1 := by
      rw [stateAfter_succ graph start order i s hs (heap_Pop_some_nonempty hpop)]
      exact hit
    obtain ⟨s2, S2, m2, hr, hc2, -, -, hm2, -⟩ :=
      rounds_core graph start hnn order hord c (i + 1) s1 _ _ hc1 hcl1
    have hs2 : stateAfter graph start order (i + 1 + c) = some s2 := by
      rw [stateAfter_add, hs1]
      exact hr
    rw [hsj] at hs2
    obtain rfl := Option.some.inj hs2
    obtain ⟨-, hperm, -, -⟩ := pop_facts sj.pq hc2.heap itj pqj hpopj
    have hin : (itj.node, itj.priority) ∈ sj.pq.pairs :=
      (hperm.mem_iff).mpr (List.mem_cons_self _ _)
    exact le_trans hm2 (hc2.qlow _ hin).1

theorem C16_witness :
    NonNeg scenario1 ∧ OrderOK (storedOrder : Nat → List (Int × WithTop ℤ) → _) ∧ 1 ≤ 5 ∧
    extracted scenario1 0 storedOrder 1 = some 1 ∧
    extracted scenario1 0 storedOrder 5 = some 6 ∧ (1 : WithTop ℤ) ≤ 6 ∧
    (List.range 7).map (fun n => extracted scenario1 0 storedOrder n) =
      [some 0, some 1, some 3, some 4, some 4, some 6, none] :=
  ⟨by unfold NonNeg; decide, orderOK_storedOrder, by decide, by decide, by decide,
    C16_extracted_priorities_nondecreasing scenario1 0 storedOrder 1 5 1 6
      (by unfold NonNeg; decide) orderOK_storedOrder (by decide) (by decide) (by decide),
    by decide⟩

/-- C17: with non-negative weights, once a round of a run has extracted an entry (u, p) with
p equal to the table value of u, that value is final: it is the table value of u in every
later loop state and in the returned table, and every later round that extracts an entry
of u changes no table entry and inserts nothing. -/
theorem C17_fresh_extraction_settles_the_node (graph : Graph D) (start : Int)
    (order : Nat → List (Int × D) → List (Int × D)) (i : Nat) (s : State D) (it : Item D)
    (pq1 : PriorityQueue D) (hnn : NonNeg graph) (hord : OrderOK order)
    (hstate : stateAfter graph start order i = some s)
    (hpop : heap.Pop s.pq = some (it, pq1))
    (hfresh : s.distances it.node = some it.priority) :
    (∀ j, ∃ sj, stateAfter graph start order (i + j) = some sj ∧
      sj.distances it.node = some it.priority) ∧
    (∀ fuel, edgeCount graph + 2 ≤ fuel →
      ∃ t, Dijkstra graph start order fuel = some t ∧ t it.node = some it.priority) ∧
    (∀ j sj it2 pq2, stateAfter graph start order (i + 1 + j) = some sj →
      heap.Pop sj.pq = some (it2, pq2) → it2.node = it.node →
      stateAfter graph start order (i + 1 + j + 1) = some ⟨sj.distances, pq2⟩) := by
  obtain ⟨s0, S, m, hs0, hc, hcl⟩ := stateAfter_core graph start hnn order hord i
  rw [hstate] at hs0
  obtain rfl := Option.some.inj hs0
  obtain ⟨s1, hit, hc1, hcl1, -, hsame1, -⟩ :=
    iteration_detail graph start hnn (order i) (hord i) S m s hc hcl it pq1 hpop
  have hs1 : stateAfter graph start order (i + 1) = some s1 := by
    rw [stateAfter_succ graph start order i s hstate (heap_Pop_some_nonempty hpop)]
    exact hit
  have hlater : ∀ c, ∃ s2 S2 m2, stateAfter graph start order (i + 1 + c) = some s2 ∧
      Core graph start S2 m2 s2 ∧ Closed graph S2 s2 ∧ it.node ∈ S2 ∧
      s2.distances it.node = some it.priority := by
    intro c
    obtain ⟨s2, S2, m2, hr, hc2, hcl2, hsub, -, hsame2⟩ :=
      rounds_core graph start hnn order hord c (i + 1) s1 _ _ hc1 hcl1
    refine ⟨s2, S2, m2, ?_, hc2, hcl2, hsub _ (List.mem_cons_self _ _), ?_⟩
    · rw [stateAfter_add, hs1]
      exact hr
    · rw [hsame2 _ (List.mem_cons_self _ _), hsame1 _ (List.mem_cons_self _ _)]
      exact hfresh
  have hall : ∀ j, ∃ sj, stateAfter graph start order (i + j) = some sj ∧
      sj.distances it.node = some it.priority := by
    intro j
    cases j with
    | zero => exact ⟨s, hstate, hfresh⟩
    | succ c =>
      obtain ⟨s2, -, -, h2, -, -, -, hd⟩ := hlater c
      have e : i + (c + 1) = i + 1 + c := by omega
      rw [e]
      exact ⟨s2, h2, hd⟩
  refine ⟨hall, ?_, ?_⟩
  · intro fuel hfuel
    obtain ⟨t, ht, -⟩ := Dijkstra_final graph start hnn order hord fuel hfuel
    refine ⟨t, ht, ?_⟩
    obtain ⟨f, rfl⟩ : ∃ f, fuel = f + 1 := ⟨fuel - 1, by omega⟩
    rw [Dijkstra_rounds] at ht
    cases hsf : stateAfter graph start order f with
    | none => rw [hsf] at ht; exact absurd ht (by simp)
    | some sf =>
      rw [hsf] at ht
      by_cases hne : sf.pq.Len > 0
      · simp only [hne, if_true] at ht
        exact absurd ht (by simp)
      · simp only [hne, if_false] at ht
        obtain rfl := Option.some.inj ht
        by_cases hfi : i ≤ f
        · obtain ⟨sj, hsj, hd⟩ := hall (f - i)
          have e : i + (f - i) = f := by omega
          rw [e, hsf] at hsj
          obtain rfl := Option.some.inj hsj
          exact hd
        · exfalso
          have hend := stateAfter_of_ended graph start order f (i - f) sf hsf hne
          have e : f + (i - f) = i := by omega
          rw [e, hstate] at hend
          obtain rfl := Option.some.inj hend
          exact hne (heap_Pop_some_nonempty hpop)
  · intro j sj it2 pq2 hsj hpop2 hnode
    obtain ⟨s2, S2, m2, h2, hc2, hcl2, hmem, -⟩ := hlater j
    rw [hsj] at h2
    obtain rfl := Option.some.inj h2
    obtain ⟨s3, hit3, -, -, -, -, hnoop⟩ :=
      iteration_detail graph start hnn (order (i + 1 + j)) (hord _) S2 m2 sj hc2 hcl2 it2 pq2
        hpop2
    rw [hnoop (Or.inl (hnode ▸ hmem))] at hit3
    rw [stateAfter_succ graph start order _ sj hsj (heap_Pop_some_nonempty hpop2)]
    exact hit3

theorem C17_witness :
    NonNeg scenario1 ∧ OrderOK (storedOrder : Nat → List (Int × WithTop ℤ) → _) ∧
    stateAfter scenario1 0 storedOrder 2 = some freshState ∧
    heap.Pop freshState.pq =
      some ({ node := 1, priority := 3, index := -1 },
        [{ node := 1, priority := 4, index := 0 }, { node := 3, priority := 6, index := 1 }]) ∧
    freshState.distances 1 = some 3 ∧
    ((∀ j, ∃ sj, stateAfter scenario1 0 storedOrder (2 + j) = some sj ∧
      sj.distances 1 = some 3) ∧
    (∀ fuel, edgeCount scenario1 + 2 ≤ fuel →
      ∃ t, Dijkstra scenario1 0 storedOrder fuel = some t ∧ t 1 = some 3) ∧
    (∀ j sj it2 pq2, stateAfter scenario1 0 storedOrder (2 + 1 + j) = some sj →
      heap.Pop sj.pq = some (it2, pq2) → it2.node = 1 →
      stateAfter scenario1 0 storedOrder (2 + 1 + j + 1) = some ⟨sj.distances, pq2⟩)) :=
  ⟨by unfold NonNeg; decide, orderOK_storedOrder, stateAfter_getD _ _ _ _, by decide, by decide,
    C17_fresh_extraction_settles_the_node scenario1 0 storedOrder 2 freshState
      { node := 1, priority := 3, index := -1 }
      [{ node := 1, priority := 4, index := 0 }, { node := 3, priority := 6, index := 1 }]
      (by unfold NonNeg; decide) orderOK_storedOrder (stateAfter_getD _ _ _ _) (by decide)
      (by decide)⟩

end

/-! ### Float64 addition and order -/

section

open Float64

end

section

open Float64

end

/-! ### Every run in float64 arithmetic ends -/

section

open Float64

end

/-! ### Two runs on cycles of negative weight -/

section

variable {D : Type} [LinearOrder D] [Add D] [Zero D] [Top D]

end

section

open Float64

end

section

open Float64

end

/-! ### Negative weights (C18) -/

section

end

/-! ### The method Pop (C19) -/

section

variable {D : Type} [LinearOrderedAddCommMonoidWithTop D]

theorem C19_counterexample :
    IsHeap exampleQueue ∧ 0 < exampleQueue.Len ∧
    exampleQueue.Pop =
      some ({ node := 1, priority := 5, index := -1 },
        [{ node := 2, priority := 3, index := 0 }, { node := 1, priority := 5, index := 1 }]) ∧
    (∃ e ∈ exampleQueue, e.priority < (5 : WithTop ℤ)) ∧
    heap.Pop exampleQueue =
      some ({ node := 2, priority := 3, index := -1 },
        [{ node := 1, priority := 5, index := 0 }, { node := 1, priority := 5, index := 1 }]) :=
  ⟨fromEmpty_isHeap fromEmpty_exampleQueue, by decide, by decide, by decide, by decide⟩

/-- C19 (amended): on a non-empty queue that satisfies the heap ordering, the method
PriorityQueue.Pop called directly removes and returns the last element of the slice, with
its index set to -1, and leaves the other elements in place; the priority it returns is at
least the priority of the root, which is the minimum of the queue. -/
theorem C19_Pop_returns_the_last_element (pq : PriorityQueue D) (hne : 0 < pq.Len)
    (hheap : IsHeap pq) :
    ∃ last, pq = pq.take (pq.length - 1) ++ [last] ∧
      pq.Pop = some ({ last with index := -1 }, pq.take (pq.length - 1)) ∧
      (∀ e ∈ pq, pq.prio 0 ≤ e.priority) ∧ pq.prio 0 ≤ last.priority := by
  have hlen : 0 < pq.length := hne
  obtain ⟨last, hlast⟩ : ∃ a, pq[pq.length - 1]? = some a :=
    ⟨pq[pq.length - 1], List.getElem?_eq_getElem (by omega)⟩
  have hsplit : pq = pq.take (pq.length - 1) ++ [last] := by
    have h4 : List.take (pq.length - 1 + 1) pq = pq := by
      apply List.take_of_length_le; omega
    have h5 := @List.take_succ _ pq (pq.length - 1)
    rw [h4, hlast] at h5
    simpa using h5
  have hroot : ∀ e ∈ pq, pq.prio 0 ≤ e.priority := by
    intro e he
    obtain ⟨k, hk⟩ := List.mem_iff_getElem?.mp he
    have h6 := root_le pq hheap k (List.getElem?_eq_some.mp hk).1
    rwa [prio_of_get hk] at h6
  refine ⟨last, hsplit, ?_, hroot, hroot last ?_⟩
  · have hne0 : ¬ pq.length = 0 := by omega
    simp only [PriorityQueue.Pop, hne0, if_false, hlast]
  · rw [hsplit]
    simp

theorem C19_witness :
    0 < exampleQueue.Len ∧ IsHeap exampleQueue ∧
    ∃ last, exampleQueue = exampleQueue.take (exampleQueue.length - 1) ++ [last] ∧
      exampleQueue.Pop =
        some ({ last with index := -1 }, exampleQueue.take (exampleQueue.length - 1)) ∧
      (∀ e ∈ exampleQueue, exampleQueue.prio 0 ≤ e.priority) ∧
      exampleQueue.prio 0 ≤ last.priority :=
  ⟨by decide, fromEmpty_isHeap fromEmpty_exampleQueue,
    C19_Pop_returns_the_last_element exampleQueue (by decide)
      (fromEmpty_isHeap fromEmpty_exampleQueue)⟩

end

end GoDijkstra
